import Mathlib

/-!
# pkgs/speed/delay.go

A shallow embedding of the latency-probing engine of `pkgs/speed/delay.go`
(`TestDelay`, `TestTCP`, `TestDelayOnce`, `TestWebSocketDelay`,
`showPercentText`) and theorems about it.

* Network I/O is not executed: what the network answers to one probe is a
  value of type `World`, and every function that talks to the network takes it
  as an argument.  Side effects (calls made, lines printed) are returned as a
  list of `Event`s.
* `showPercentText` reads `count` three times and `okCount` once; each read is a step
  of its own, so that increments by the workers can fall between them.
* A Go `string` is a Lean `String`; the two searches of the source (`strings.Contains`
  and the regular expression `colo=([A-Z]+)`) only involve ASCII patterns, so they are
  carried out on the list of characters.
* `TestDelay` is concurrent.  The body of each goroutine is translated to the list of
  its shared-memory instructions in source order, and a run is a schedule
  (`List Action`) interleaving the dispatch loop, the workers and the progress ticker.
-/

namespace Speed

/-! ## Data model -/

/-- Go `error`: `none` is `nil`, `some msg` is an error whose text is `msg`. -/
abbrev GoError := Option String

/-- Nanoseconds, as in `time.Duration`. -/
abbrev Duration := Int

/-- Go `Duration.Milliseconds`: integer division by `1e6`, truncated toward zero. -/
def Milliseconds (d : Duration) : Int := Int.tdiv d 1000000

/-- Go `fmt.Sprintf("%d", n)`. -/
def Sprintf_d (n : Int) : String := toString n

/-- Go `fmt.Errorf(pfx + "%s", err)`; a nil `err` is rendered by `fmt` as `%!s(<nil>)`. -/
def Errorf_s (pfx : String) (err : GoError) : GoError :=
  some (pfx ++ (match err with
    | some msg => msg
    | none => "%!s(<nil>)"))

/-- The endpoint type `IpPair` (declared outside `delay.go`; fields as used there). -/
structure IpPair where
  ip : String
  port : Int
deriving DecidableEq, Repr

/-- The type `DelayResult` of `delay.go`. -/
structure DelayResult where
  duration : Duration
  body : String
deriving DecidableEq, Repr

/-- The type `Result` (declared outside `delay.go`).  `delay.go` builds it with the
eight-field positional literal
`Result{ip, port, dataCenter, loc.Region, loc.Cca2, loc.City, latency, tcpDuration}`
and reads `dataCenter`, `city` and `tcpDuration`. -/
structure Result where
  ip : String
  port : Int
  dataCenter : String
  region : String
  country : String
  city : String
  latency : String
  tcpDuration : Duration
deriving DecidableEq, Repr

/-- The value type of `LocationMap` (declared outside `delay.go`; fields as read there). -/
structure location where
  Region : String
  Cca2 : String
  City : String
deriving DecidableEq, Repr

/-- The fields of `CFSpeedTest` that `delay.go` reads.

* `MaxThread` is the capacity given to `make(chan struct{}, st.MaxThread)`.
* `LocationMap` is a Go map read with the comma-ok form; it is the lookup function.
* `FilterIATASet` is a Go map used as a set: `none` is the nil map, `some l` the
  map whose keys are the members of `l`. -/
structure CFSpeedTest where
  EnableTLS : Bool
  DelayTestURL : String
  MaxThread : Nat
  MaxDelayCount : Int
  DelayTestType : Int
  TestWebSocket : Bool
  VerboseMode : Bool
  FilterIATASet : Option (List String)
  LocationMap : String → Option location

/-- Modelled from the spec: the declaration of `FilterIATASet` is not in `delay.go`; the
spec calls it an optional set of allowed data-center codes.  The source indexes it and
compares with nil (`st.FilterIATASet[k] == nil`), which holds exactly for the keys that
are not in the set. -/
def filterIndex (set : List String) (k : String) : Option Unit :=
  if k ∈ set then some () else none

/-- What the network (and the HTTP library) answers during one probe of one endpoint.

* `tcpDial`: `TestTCP`, the error of `dialer.Dial` or the elapsed `time.Since(start)`.
* `h1`: the return value of `TestDelayUseH1` (defined outside `delay.go`).
* `wsDial`: the error of `dialer.Dial` in `TestWebSocketDelay`.
* `newRequest url`: whether `http.NewRequest("GET", url, nil)` builds a request; its
  error is discarded by the source, and on failure `req` is nil.
* `wsResp`, `wsErr`: the values `resp` (nil, or its `StatusCode`) and `err` of `client.Do`. -/
structure World where
  tcpDial : Except String Duration
  h1 : Except String DelayResult
  wsDial : GoError
  newRequest : String → Bool
  wsResp : Option Int
  wsErr : GoError

/-- One progress line of `showPercentText`: the values printed and the line terminator.
The `%.2f` percentage is a floating-point rendering of `count / total` and is not part of
the record. -/
structure ProgressLine where
  count : Nat
  total : Nat
  okCount : Nat
  terminator : Char
deriving DecidableEq, Repr

/-- Observable effects of a worker: network calls and lines written by `fmt.Printf`. -/
inductive Event where
  | dialTCP (ipPair : IpPair)
  | traceFetch (ipPair : IpPair)
  | upgradeProbe (ipPair : IpPair)
  | connectFailed (ipPair : IpPair) (err : String)
  | found (ipPair : IpPair) (city : String) (ms : Int) (filterStr : String)
  | ipError (ipPair : IpPair) (err : String)
deriving DecidableEq, Repr

/-- What a run of `TestDelay` puts out: the effects of the workers, the progress lines of
`showPercentText`, and the early-stop message of line 118 with the `okCount` it prints. -/
inductive Output where
  | event (e : Event)
  | progress (line : ProgressLine)
  | enough (okCount : Nat)
deriving DecidableEq, Repr

/-- Where a call of `showPercentText` stands: before its first read, after the
`count.Load()` of line 34, after the `count.Load()` of line 35, after the
`okCount.Load()` of line 35.  The values read so far are kept. -/
inductive ShowPc where
  | start
  | afterPct (cPct : Nat)
  | afterCount (cPct cShown : Nat)
  | afterOk (cPct cShown okCount : Nat)
deriving DecidableEq, Repr

/-! ## Pure helpers of the source -/

/-- The method `GetDelayTestURL`. -/
def GetDelayTestURL (st : CFSpeedTest) : String :=
  let protocol := if st.EnableTLS then "https://" else "http://"
  protocol ++ st.DelayTestURL ++ "/cdn-cgi/trace"

/-- The method `showPercentText`.  `count.Load()` is evaluated three times: for the
percentage (`cPct`), for the printed value (`cShown`) and for the comparison with `total`
(`cCmp`); `okCount.Load()` once. -/
def showPercentText (_cPct cShown okCount cCmp total : Nat) : ProgressLine :=
  { count := cShown
    total := total
    okCount := okCount
    terminator := if cCmp = total then '\n' else '\r' }

/-- One read of `showPercentText` from the counters as they are now: the next of its
four loads, the last of which (the `count.Load()` of line 36) completes the line. -/
def showStep (count okCount total : Nat) : ShowPc → ShowPc ⊕ ProgressLine
  | .start => .inl (.afterPct count)
  | .afterPct cPct => .inl (.afterCount cPct count)
  | .afterCount cPct cShown => .inl (.afterOk cPct cShown okCount)
  | .afterOk cPct cShown ok => .inr (showPercentText cPct cShown ok count total)

/-- Go `strings.Contains` on character lists. -/
def containsList : List Char → List Char → Bool
  | [], sub => sub.isPrefixOf []
  | c :: cs, sub => sub.isPrefixOf (c :: cs) || containsList cs sub

/-- Go `strings.Contains`. -/
def stringsContains (s sub : String) : Bool := containsList s.data sub.data

/-- The character class `[A-Z]`. -/
def isUpperAZ (c : Char) : Bool := decide ('A'.toNat ≤ c.toNat) && decide (c.toNat ≤ 'Z'.toNat)

/-- The pattern `colo=([A-Z]+)` anchored at the head of the input: the literal `colo=`
followed by the longest non-empty run of `[A-Z]` (the `+` is greedy).  Returns the
capture group. -/
def matchHere (s : List Char) : Option (List Char) :=
  if "colo=".data.isPrefixOf s then
    let run := (s.drop 5).takeWhile isUpperAZ
    if run.isEmpty then none else some run
  else none

/-- Leftmost match of `colo=([A-Z]+)`: the capture group of the first position at which
the pattern matches. -/
def findColo : List Char → Option (List Char)
  | [] => none
  | c :: cs =>
    match matchHere (c :: cs) with
    | some run => some run
    | none => findColo cs

/-- Go `regexp.MustCompile("colo=([A-Z]+)").FindStringSubmatch(body)`: nil when there is
no match, otherwise the whole match followed by the capture group. -/
def FindStringSubmatch (body : String) : List String :=
  match findColo body.data with
  | some run => [String.mk ("colo=".data ++ run), String.mk run]
  | none => []

/-! ## The probes -/

/-- The method `TestTCP`. -/
def TestTCP (ipPair : IpPair) (w : World) : (Option Result × GoError) × List Event :=
  match w.tcpDial with
  | .error err => ((none, some err), [.dialTCP ipPair])
  | .ok tcpDuration =>
    ((some ⟨ipPair.ip, ipPair.port, "", "", "", "",
        Sprintf_d (Milliseconds tcpDuration), tcpDuration⟩, none), [.dialTCP ipPair])

/-- The URL requested by `TestWebSocketDelay`. -/
def wsRequestURL (st : CFSpeedTest) : String :=
  let protocol := if st.EnableTLS then "https://" else "http://"
  protocol ++ st.DelayTestURL ++ "/ws"

/-- The method `TestWebSocketDelay`.  The first component is `none` when the call does
not return: `http.NewRequest` failed, `req` is nil and `req.Header.Set` dereferences it. -/
def TestWebSocketDelay (st : CFSpeedTest) (ipPair : IpPair) (w : World) :
    Option (Bool × GoError) × List Event :=
  match w.wsDial with
  | some err =>
    (some (false, some err),
      if st.VerboseMode then [.connectFailed ipPair err] else [])
  | none =>
    if w.newRequest (wsRequestURL st) then
      let result := decide (w.wsErr = none) && decide (w.wsResp = some 101)
      (some (result, Errorf_s "websocket: " w.wsErr), [])
    else (none, [])

/-- Lines 155 to 161 of `TestDelayOnce`: the lookup of the data-center code. -/
def resolveLocation (st : CFSpeedTest) (ipPair : IpPair) (dataCenter : String)
    (tcpDuration : Duration) : Result :=
  match st.LocationMap dataCenter with
  | some loc =>
    ⟨ipPair.ip, ipPair.port, dataCenter, loc.Region, loc.Cca2, loc.City,
      Sprintf_d (Milliseconds tcpDuration), tcpDuration⟩
  | none =>
    ⟨ipPair.ip, ipPair.port, dataCenter, "", "", "",
      Sprintf_d (Milliseconds tcpDuration), tcpDuration⟩

/-- The method `TestDelayOnce`.  The first component is `none` when the call does not
return (the upgrade probe it invoked did not). -/
def TestDelayOnce (st : CFSpeedTest) (ipPair : IpPair) (w : World) :
    Option (Option Result × GoError) × List Event :=
  match w.h1 with
  | .error err => (some (none, some err), [.traceFetch ipPair])
  | .ok delayResult =>
    let tcpDuration := delayResult.duration
    if stringsContains delayResult.body "uag=Mozilla/5.0" then
      let submatches := FindStringSubmatch delayResult.body
      if submatches.length > 1 then
        if st.TestWebSocket then
          match TestWebSocketDelay st ipPair w with
          | (none, ev) => (none, [.traceFetch ipPair, .upgradeProbe ipPair] ++ ev)
          | (some (ok, err), ev) =>
            if !ok then
              (some (none, err), [.traceFetch ipPair, .upgradeProbe ipPair] ++ ev)
            else
              (some (some (resolveLocation st ipPair (submatches.getD 1 "") tcpDuration), none),
                [.traceFetch ipPair, .upgradeProbe ipPair] ++ ev)
        else
          (some (some (resolveLocation st ipPair (submatches.getD 1 "") tcpDuration), none),
            [.traceFetch ipPair])
      else (some (none, some "not match"), [.traceFetch ipPair])
    else (some (none, some "not match"), [.traceFetch ipPair])

/-! ## `TestDelay`: the goroutine body as a list of instructions -/

/-- The shared-memory instructions of a worker goroutine of `TestDelay`.

* `emit e`: an effect of the probe or a `fmt.Printf`;
* `send r`: `resultChan <- *result`;
* `okAdd`: `okCount.Add(1)`;
* `wgDone`, `countAdd`, `release`: the three statements of the deferred function,
  `wg.Done()`, `count.Add(1)` and `<-thread`;
* `crash`: the end of a panicking goroutine, which takes the process down. -/
inductive Instr where
  | emit (e : Event)
  | send (r : Result)
  | okAdd
  | wgDone
  | countAdd
  | release
  | crash
deriving DecidableEq, Repr

/-- The deferred function of the worker (lines 79 to 83). -/
def deferredBlock : List Instr := [.wgDone, .countAdd, .release]

/-- Lines 95 to 107 of the worker: what it does with the `result` and `err` of the probe. -/
def afterProbe (st : CFSpeedTest) (ipPair : IpPair) (result : Option Result)
    (err : GoError) : List Instr :=
  (match result with
    | some r =>
      if st.FilterIATASet.isSome &&
          (filterIndex (st.FilterIATASet.getD []) r.dataCenter).isNone then
        [.emit (.found ipPair r.city (Milliseconds r.tcpDuration) "，但被过滤")]
      else
        [.send r, .okAdd, .emit (.found ipPair r.city (Milliseconds r.tcpDuration) "")]
    | none => []) ++
  (match err with
    | some msg => if st.VerboseMode then [.emit (.ipError ipPair msg)] else []
    | none => [])

/-- The goroutine started by `TestDelay` for one endpoint (lines 78 to 109), as the list
of its instructions in program order.  The deferred function runs on every exit: after the
body, after the early `return` of an unknown `DelayTestType`, and while a panic unwinds,
in which case the process dies once it has run. -/
def workerProgram (st : CFSpeedTest) (ipPair : IpPair) (w : World) : List Instr :=
  if st.DelayTestType = 1 then
    (TestTCP ipPair w).2.map Instr.emit ++
      afterProbe st ipPair (TestTCP ipPair w).1.1 (TestTCP ipPair w).1.2 ++ deferredBlock
  else if st.DelayTestType = 0 then
    match TestDelayOnce st ipPair w with
    | (some (result, err), ev) =>
      ev.map Instr.emit ++ afterProbe st ipPair result err ++ deferredBlock
    | (none, ev) => ev.map Instr.emit ++ deferredBlock ++ [.crash]
  else deferredBlock

/-- The results a list of instructions sends on the result channel, in order. -/
def sends : List Instr → List Result
  | [] => []
  | .send r :: rest => r :: sends rest
  | _ :: rest => sends rest

/-! ## `TestDelay`: the interleaving semantics -/

/-- Where the goroutine that called `TestDelay` stands.

* `loop`: at the top of the `for` loop (line 70);
* `acquire ip`: after `wg.Add(1)`, at `thread <- struct` (line 77);
* `wait`: at `wg.Wait()` (line 112);
* `stop`: `wg.Wait()` has returned (lines 113 to 115);
* `final l`: in the last `showPercentText` (line 116), having read `l`;
* `summary`: at the early-stop test of line 117;
* `announce`: at the `fmt.Printf` of line 118;
* `returned`: `TestDelay` has returned. -/
inductive Pc where
  | loop
  | acquire (ip : IpPair)
  | wait
  | stop
  | final (l : ShowPc)
  | summary
  | announce
  | returned
deriving DecidableEq, Repr

/-- A worker goroutine: its endpoint and the instructions it has still to execute. -/
structure Worker where
  ipPair : IpPair
  prog : List Instr
deriving DecidableEq, Repr

/-- The state of a run of `TestDelay`.

* `todo`: the endpoints the `for` loop has not reached yet;
* `workers`: the goroutines started so far, in the order they were started;
* `resultChan`, `closed`: the content of the result channel and whether it is closed;
* `count`, `okCount`: the two `atomic.Int64` counters;
* `wg`: the counter of the `sync.WaitGroup`;
* `thread`: the number of elements in the channel `thread`;
* `ticker`: the goroutine of `showPercent`; `none` once it has returned, `some .start`
  while it waits in its `select`, otherwise where its call of `showPercentText` stands;
* `output`: what has been put out so far. -/
structure State where
  pc : Pc
  todo : List IpPair
  workers : List Worker
  resultChan : List Result
  closed : Bool
  count : Nat
  okCount : Nat
  wg : Nat
  thread : Nat
  ticker : Option ShowPc
  output : List Output
deriving DecidableEq, Repr

/-- A call of `TestDelay`: the configuration, the endpoints, and what the network
answers to the probe of the `i`-th started worker. -/
structure Sys where
  st : CFSpeedTest
  ips : List IpPair
  world : Nat → IpPair → World

/-- The state after lines 59 to 69. -/
def init (sys : Sys) : State :=
  { pc := .loop
    todo := sys.ips
    workers := []
    resultChan := []
    closed := false
    count := 0
    okCount := 0
    wg := 0
    thread := 0
    ticker := some .start
    output := [] }

/-- What a scheduler can pick: the calling goroutine, the `i`-th worker, or the progress
goroutine. -/
inductive Action where
  | dispatch
  | worker (i : Nat)
  | tick
deriving DecidableEq, Repr

/-- One instruction of a worker on the shared state.  The result is `none` when the
instruction cannot complete: a send on a full channel blocks and on a closed one panics, a
`wg.Done()` below zero panics, a receive from an empty `thread` blocks, `crash` ends the
process. -/
def execInstr (sys : Sys) (ins : Instr) (s : State) : Option State :=
  match ins with
  | .emit e => some { s with output := s.output ++ [.event e] }
  | .send r =>
    if s.closed then none
    else if s.resultChan.length < sys.ips.length then
      some { s with resultChan := s.resultChan ++ [r] }
    else none
  | .okAdd => some { s with okCount := s.okCount + 1 }
  | .wgDone => if s.wg = 0 then none else some { s with wg := s.wg - 1 }
  | .countAdd => some { s with count := s.count + 1 }
  | .release => if s.thread = 0 then none else some { s with thread := s.thread - 1 }
  | .crash => none

/-- The `i`-th worker executes its next instruction. -/
def stepWorker (sys : Sys) (i : Nat) (s : State) : Option State :=
  match s.workers.get? i with
  | some ⟨ipPair, ins :: rest⟩ =>
    (execInstr sys ins s).map fun t => { t with workers := t.workers.set i ⟨ipPair, rest⟩ }
  | _ => none

/-- The early-stop test of lines 72 and 117 on a value read from `okCount`. -/
def enoughResults (st : CFSpeedTest) (okCount : Nat) : Bool :=
  decide (st.MaxDelayCount > 0) && decide ((okCount : Int) ≥ st.MaxDelayCount)

/-- One step of the goroutine that called `TestDelay`.

* `loop`: the range is exhausted, or the early-stop test breaks out of the loop, or
  `wg.Add(1)` is executed;
* `acquire ip`: `thread <- struct` completes when the channel is not full, then the
  worker is started;
* `wait`: `wg.Wait()` returns when the counter is zero;
* `stop`: the send on the unbuffered `stopShowPercent` completes when the progress
  goroutine waits in its `select`; that goroutine returns, and both channels are closed;
* `final l`: the next read of the last `showPercentText`, the fourth one printing the line;
* `summary`: the test of line 117 on a fresh `okCount.Load()`;
* `announce`: the message of line 118 with a fresh `okCount.Load()`. -/
def stepDispatch (sys : Sys) (s : State) : Option State :=
  match s.pc with
  | .loop =>
    match s.todo with
    | [] => some { s with pc := .wait }
    | ip :: rest =>
      if enoughResults sys.st s.okCount then some { s with pc := .wait }
      else some { s with wg := s.wg + 1, pc := .acquire ip, todo := rest }
  | .acquire ip =>
    if s.thread < sys.st.MaxThread then
      some { s with
        thread := s.thread + 1
        workers := s.workers ++ [⟨ip, workerProgram sys.st ip (sys.world s.workers.length ip)⟩]
        pc := .loop }
    else none
  | .wait => if s.wg = 0 then some { s with pc := .stop } else none
  | .stop =>
    if s.ticker = some .start then
      some { s with ticker := none, closed := true, pc := .final .start }
    else none
  | .final l =>
    match showStep s.count s.okCount sys.ips.length l with
    | .inl l2 => some { s with pc := .final l2 }
    | .inr line => some { s with output := s.output ++ [.progress line], pc := .summary }
  | .summary =>
    if enoughResults sys.st s.okCount then some { s with pc := .announce }
    else some { s with pc := .returned }
  | .announce => some { s with output := s.output ++ [.enough s.okCount], pc := .returned }
  | .returned => none

/-- One step of the progress goroutine (lines 47 to 54): from its `select` the ticker
case starts a call of `showPercentText`, whose reads are one step each; after the line is
printed the goroutine is back in its `select`. -/
def stepTick (sys : Sys) (s : State) : Option State :=
  match s.ticker with
  | none => none
  | some l =>
    match showStep s.count s.okCount sys.ips.length l with
    | .inl l2 => some { s with ticker := some l2 }
    | .inr line =>
      some { s with output := s.output ++ [.progress line], ticker := some .start }

/-- One scheduled step. -/
def step (sys : Sys) (a : Action) (s : State) : Option State :=
  match a with
  | .dispatch => stepDispatch sys s
  | .worker i => stepWorker sys i s
  | .tick => stepTick sys s

/-- The state reached by a schedule, if every step of it can be taken. -/
def run (sys : Sys) : List Action → State → Option State
  | [], s => some s
  | a :: rest, s => (step sys a s).bind (run sys rest)

/-- The method `TestDelay` under a schedule: the state the schedule leads to from the
start of the call, `none` if the schedule asks for a step that cannot be taken.  The call
has returned in a state with `pc = returned`; the channel it returns is `resultChan`. -/
def TestDelay (sys : Sys) (sched : List Action) : Option State :=
  run sys sched (init sys)

/-- States that some schedule reaches from the start of `TestDelay`. -/
def Reachable (sys : Sys) (s : State) : Prop :=
  ∃ sched, TestDelay sys sched = some s

/-- A state at the top of the loop in which every started worker has finished. -/
structure Quiet (sys : Sys) (s : State) : Prop where
  pc : s.pc = .loop
  wg : s.wg = 0
  thread : s.thread = 0
  closed : s.closed = false
  ticker : s.ticker = some .start
  progs : ∀ w ∈ s.workers, w.prog = []
  chan : s.resultChan.length ≤ s.workers.length
  len : s.workers.length + s.todo.length = sys.ips.length

/-! ## Measures on programs and states -/

/-- The number of `countAdd` instructions in a list: the `count.Add(1)` still to come. -/
def nCount (p : List Instr) : Nat := p.count .countAdd

/-- The number of `okAdd` instructions in a list: the `okCount.Add(1)` still to come. -/
def nOk (p : List Instr) : Nat := p.count .okAdd

/-- The number of `wgDone` instructions in a list. -/
def nDone (p : List Instr) : Nat := p.count .wgDone

/-- The number of `release` instructions in a list. -/
def nRel (p : List Instr) : Nat := p.count .release

/-- The sum of a measure over the remaining programs of the workers. -/
def tot (f : List Instr → Nat) (ws : List Worker) : Nat := (ws.map fun w => f w.prog).sum

/-- The number of `count.Add(1)` that started workers have not executed yet. -/
def pendingCount (s : State) : Nat := tot nCount s.workers

/-- The results that started workers have still to send. -/
def pendingSends (ws : List Worker) : Multiset Result :=
  (ws.map fun w => (↑(sends w.prog) : Multiset Result)).sum

/-- The results that pass probe and filter when the endpoints of the list are probed by
the workers number `k`, `k + 1`, and so on. -/
def acceptedFrom (sys : Sys) : Nat → List IpPair → List Result
  | _, [] => []
  | k, ip :: rest =>
    sends (workerProgram sys.st ip (sys.world k ip)) ++ acceptedFrom sys (k + 1) rest

/-- The results that pass probe and filter when every endpoint of the run is probed. -/
def accepted (sys : Sys) : List Result := acceptedFrom sys 0 sys.ips

/-- The endpoint for which the loop has executed `wg.Add(1)` and not yet started the
worker. -/
def acq : Pc → List IpPair
  | .acquire ip => [ip]
  | _ => []

/-- The `for` loop has been left. -/
def afterLoop : Pc → Prop
  | .loop => False
  | .acquire _ => False
  | _ => True

/-- The call `wg.Wait()` has returned. -/
def afterWait : Pc → Prop
  | .loop => False
  | .acquire _ => False
  | .wait => False
  | _ => True

/-- What holds of every tail of a worker program: an `okCount.Add(1)` or a send still to
come is followed by `wg.Done()` and by `<-thread`, and there is at most one of each. -/
def Good (p : List Instr) : Prop :=
  nOk p ≤ nRel p ∧ nOk p ≤ nDone p ∧ (sends p).length ≤ nDone p ∧ nRel p ≤ 1

/-- The property `Good` of a program and of all its tails. -/
def wfProg : List Instr → Prop
  | [] => True
  | i :: rest => Good (i :: rest) ∧ wfProg rest

/-- The invariant of the interleaving semantics. -/
structure Inv (sys : Sys) (s : State) : Prop where
  ips_eq : s.workers.map (fun w => w.ipPair) ++ acq s.pc ++ s.todo = sys.ips
  wf : ∀ w ∈ s.workers, wfProg w.prog
  wg_eq : s.wg = tot nDone s.workers + (acq s.pc).length
  thread_eq : s.thread = tot nRel s.workers
  thread_le : s.thread ≤ sys.st.MaxThread
  count_eq : s.count + tot nCount s.workers = s.workers.length
  ok_eq : s.okCount + tot nOk s.workers =
    (acceptedFrom sys 0 (s.workers.map fun w => w.ipPair)).length
  chan_eq : (↑s.resultChan : Multiset Result) + pendingSends s.workers =
    ↑(acceptedFrom sys 0 (s.workers.map fun w => w.ipPair))
  bound : 0 < sys.st.MaxDelayCount →
    ((s.okCount + tot nOk s.workers + (acq s.pc).length : Nat) : Int) ≤
      sys.st.MaxDelayCount + sys.st.MaxThread
  exit : afterLoop s.pc → s.todo = [] ∨ enoughResults sys.st s.okCount = true
  waited : afterWait s.pc → s.wg = 0

/-- The value of `count` that a call of `showPercentText` has read for printing, if it
has, is at most `count`. -/
def shownLe (count : Nat) : ShowPc → Prop
  | .afterCount _ cShown => cShown ≤ count
  | .afterOk _ cShown _ => cShown ≤ count
  | _ => True

/-- What holds of every progress line of a run on `total` endpoints: it shows `total`
and a count of at most `total`, it ends with a newline or a carriage return, and it ends
with a newline when the count it shows is `total`. -/
def lineOk (total : Nat) (line : ProgressLine) : Prop :=
  line.total = total ∧ line.count ≤ total ∧
    (line.terminator = '\n' ∨ line.terminator = '\r') ∧
    (line.count = total → line.terminator = '\n')

/-- The invariant of the progress lines. -/
structure OutInv (sys : Sys) (s : State) : Prop where
  lines : ∀ line, Output.progress line ∈ s.output → lineOk sys.ips.length line
  caller : ∀ l, s.pc = .final l → shownLe s.count l
  ticker : ∀ l, s.ticker = some l → shownLe s.count l

/-- The call `sys` with another `MaxThread`; everything else is kept. -/
def withMaxThread (sys : Sys) (m : Nat) : Sys :=
  { sys with st := { sys.st with MaxThread := m } }

/-- Whether `colo=` followed by an uppercase letter stands at position `k` of `l`. -/
def matchesAt (l : List Char) (k : Nat) : Bool :=
  "colo=".data.isPrefixOf (l.drop k) &&
    (match (l.drop (k + 5)).head? with
      | some c => isUpperAZ c
      | none => false)

/-! ## Concrete inputs -/

/-- Two endpoints. -/
def ipA : IpPair := ⟨"1.1.1.1", 443⟩

/-- The second endpoint. -/
def ipB : IpPair := ⟨"8.8.8.8", 443⟩

/-- A trace body as served by `/cdn-cgi/trace`. -/
def traceBody : String := "fl=29f1\nuag=Mozilla/5.0\ncolo=LAX\nsliver=none\n"

/-- A network on which every probe succeeds: the trace fetch returns `traceBody` after
34 ms, the TCP dial takes 12 ms, the upgrade request is answered with status `status`. -/
def goodWorld (status : Int) : World :=
  { tcpDial := .ok 12000000
    h1 := .ok ⟨34000000, traceBody⟩
    wsDial := none
    newRequest := fun _ => true
    wsResp := some status
    wsErr := none }

/-- A configuration in trace-fetch mode, without filter and without upgrade check. -/
def traceConfig (maxThread : Nat) (maxDelayCount : Int) : CFSpeedTest :=
  { EnableTLS := true
    DelayTestURL := "speed.example.com"
    MaxThread := maxThread
    MaxDelayCount := maxDelayCount
    DelayTestType := 0
    TestWebSocket := false
    VerboseMode := false
    FilterIATASet := none
    LocationMap := fun k => if k = "LAX" then some ⟨"North America", "US", "Los Angeles"⟩ else none }

/-- A call of `TestDelay` on a network where every probe succeeds. -/
def goodSys (ips : List IpPair) (maxThread : Nat) (maxDelayCount : Int) : Sys :=
  { st := traceConfig maxThread maxDelayCount
    ips := ips
    world := fun _ _ => goodWorld 101 }

/-- The result of a successful probe of `ip` on `goodWorld`. -/
def resultOf (ip : IpPair) : Result :=
  ⟨ip.ip, ip.port, "LAX", "North America", "US", "Los Angeles", "34", 34000000⟩

/-- A worker runs from its start to its end: trace fetch, send, `okCount.Add(1)`, the
line for the result, `wg.Done()`, `count.Add(1)`, `<-thread`. -/
def wholeWorker (i : Nat) : List Action := List.replicate 7 (.worker i)

/-- The calling goroutine from the exit of the loop to its return when the early-stop
test of line 117 fails: `wg.Wait()`, the stop of the progress goroutine, the four reads of
`showPercentText`, the test. -/
def toReturn : List Action := List.replicate 8 .dispatch

/-- The same when the test of line 117 succeeds: one more step for the message. -/
def toReturnAnnounce : List Action := List.replicate 9 .dispatch

/-- One endpoint; the worker has executed `okCount.Add(1)` and not yet its deferred
function. -/
def schedOkBeforeCount : List Action :=
  [.dispatch, .dispatch, .worker 0, .worker 0, .worker 0]

/-- One endpoint; `wg.Wait()` returns after the `wg.Done()` of the worker and the calling
goroutine runs to its end before the worker executes `count.Add(1)`. -/
def schedDoneBeforeCount : List Action :=
  [.dispatch, .dispatch, .worker 0, .worker 0, .worker 0, .worker 0, .worker 0] ++
    toReturn

/-- One endpoint; as `schedDoneBeforeCount`, but the worker executes `count.Add(1)`
between the second and the third `count.Load()` of the final `showPercentText`. -/
def schedCountBetweenLoads : List Action :=
  [.dispatch, .dispatch, .worker 0, .worker 0, .worker 0, .worker 0, .worker 0] ++
    List.replicate 6 .dispatch ++ [.worker 0, .dispatch, .dispatch]

/-- Two endpoints, one slot; the first worker finishes before the loop tests the second
endpoint. -/
def schedEager : List Action :=
  [.dispatch, .dispatch] ++ wholeWorker 0 ++ toReturnAnnounce

/-- Two endpoints, one slot; the loop tests the second endpoint while the first worker is
still running, then waits for the slot. -/
def schedLate : List Action :=
  [.dispatch, .dispatch, .dispatch] ++ wholeWorker 0 ++ [.dispatch] ++
    wholeWorker 1 ++ toReturnAnnounce

/-- Two endpoints, two slots; both workers are started, the second one runs first. -/
def schedSwapped : List Action :=
  [.dispatch, .dispatch, .dispatch, .dispatch] ++ wholeWorker 1 ++ wholeWorker 0 ++
    toReturn

/-- Two endpoints, no early stop; the first worker finishes before the second is
started. -/
def schedInOrder : List Action :=
  [.dispatch, .dispatch] ++ wholeWorker 0 ++ [.dispatch, .dispatch] ++ wholeWorker 1 ++
    toReturn

/-- One endpoint; the worker runs to its end, then the progress goroutine prints a line
while the calling goroutine is still in the loop. -/
def schedTickAfterCount : List Action :=
  [.dispatch, .dispatch] ++ wholeWorker 0 ++ [.tick, .tick, .tick, .tick]

/-- The state a schedule leads to (the initial state if the schedule cannot be run). -/
def stateAfter (sys : Sys) (sched : List Action) : State :=
  (TestDelay sys sched).getD (init sys)

/-- A network on which the trace fetch returns the body `body`. -/
def bodyWorld (body : String) : World :=
  { goodWorld 101 with h1 := .ok ⟨34000000, body⟩ }

/-- The configuration `traceConfig 2 0` with the filter set holding `LAX` and `SJC`. -/
def filterConfig : CFSpeedTest :=
  { traceConfig 2 0 with FilterIATASet := some ["LAX", "SJC"] }

/-- A probe result whose data center is `ORD`. -/
def ordResult : Result :=
  ⟨"1.1.1.1", 443, "ORD", "North America", "US", "Chicago", "34", 34000000⟩

/-! ## Theorems: the probes -/

theorem containsList_iff (s sub : List Char) : containsList s sub = true ↔ sub <:+: s := by
  induction s with
  | nil => simp [containsList, List.infix_nil]
  | cons c cs ih =>
    simp only [containsList, Bool.or_eq_true, ih, List.infix_cons_iff, List.isPrefixOf_iff_prefix]

theorem matchHere_some_imp {s run : List Char} (h : matchHere s = some run) :
    ∃ c rest, s = "colo=".data ++ c :: rest ∧ isUpperAZ c = true := by
  unfold matchHere at h
  split at h
  · rename_i hp
    obtain ⟨t, rfl⟩ := List.isPrefixOf_iff_prefix.mp hp
    cases t with
    | nil => simp at h
    | cons c rest =>
      refine ⟨c, rest, rfl, ?_⟩
      by_contra hc
      have hlen : ("colo=".data ++ c :: rest).drop 5 = c :: rest := by
        rw [List.drop_append_of_le_length (by decide)]
        rfl
      simp [hlen, List.takeWhile_cons, hc] at h
  · simp at h

theorem takeWhile_run (run rest : List Char) (hup : ∀ c ∈ run, isUpperAZ c = true)
    (hmax : ∀ c, rest.head? = some c → isUpperAZ c = false) :
    (run ++ rest).takeWhile isUpperAZ = run := by
  induction run with
  | nil =>
    cases rest with
    | nil => rfl
    | cons c cs => simp [List.takeWhile_cons, hmax c rfl]
  | cons c cs ih =>
    have hc : isUpperAZ c = true := hup c (List.mem_cons_self _ _)
    simp only [List.cons_append, List.takeWhile_cons, hc, if_true]
    rw [ih (fun d hd => hup d (List.mem_cons_of_mem _ hd))]

theorem matchHere_run (run rest : List Char) (hne : run ≠ [])
    (hup : ∀ c ∈ run, isUpperAZ c = true)
    (hmax : ∀ c, rest.head? = some c → isUpperAZ c = false) :
    matchHere ("colo=".data ++ run ++ rest) = some run := by
  unfold matchHere
  have hp : "colo=".data.isPrefixOf ("colo=".data ++ run ++ rest) = true := by
    rw [List.isPrefixOf_iff_prefix, List.append_assoc]
    exact List.prefix_append _ _
  have hd : ("colo=".data ++ run ++ rest).drop 5 = run ++ rest := by
    rw [List.append_assoc, List.drop_append_of_le_length (by decide)]
    rfl
  rw [if_pos hp]
  simp only [hd, takeWhile_run run rest hup hmax]
  cases run with
  | nil => exact absurd rfl hne
  | cons c cs => rfl

theorem findColo_none (s : List Char)
    (h : ¬ ∃ pre c rest, s = pre ++ "colo=".data ++ c :: rest ∧ isUpperAZ c = true) :
    findColo s = none := by
  induction s with
  | nil => rfl
  | cons x xs ih =>
    unfold findColo
    cases hm : matchHere (x :: xs) with
    | some run =>
      obtain ⟨c, rest, hs, hc⟩ := matchHere_some_imp hm
      exact absurd ⟨[], c, rest, by simpa using hs, hc⟩ h
    | none =>
      simp only
      apply ih
      rintro ⟨pre, c, rest, hs, hc⟩
      exact h ⟨x :: pre, c, rest, by simp [hs], hc⟩

theorem findColo_cons_none (x : Char) (xs : List Char) (h : matchHere (x :: xs) = none) :
    findColo (x :: xs) = findColo xs := by
  simp [findColo, h]

theorem findColo_cons_some (x : Char) (xs run : List Char)
    (h : matchHere (x :: xs) = some run) : findColo (x :: xs) = some run := by
  simp [findColo, h]

theorem findColo_leftmost (pre run rest : List Char) (hne : run ≠ [])
    (hup : ∀ c ∈ run, isUpperAZ c = true)
    (hmax : ∀ c, rest.head? = some c → isUpperAZ c = false)
    (hleft : ∀ pre2 c rest2, pre ++ "colo=".data ++ run ++ rest = pre2 ++ "colo=".data ++ c :: rest2 →
      isUpperAZ c = true → pre.length ≤ pre2.length) :
    findColo (pre ++ "colo=".data ++ run ++ rest) = some run := by
  induction pre with
  | nil =>
    have hm := matchHere_run run rest hne hup hmax
    exact findColo_cons_some 'c' _ run hm
  | cons x xs ih =>
    have hnone : matchHere (x :: (xs ++ "colo=".data ++ run ++ rest)) = none := by
      cases hm : matchHere (x :: (xs ++ "colo=".data ++ run ++ rest)) with
      | none => rfl
      | some r =>
        obtain ⟨c, rest2, hs, hc⟩ := matchHere_some_imp hm
        have := hleft [] c rest2 hs hc
        simp at this
    have hih : findColo (xs ++ "colo=".data ++ run ++ rest) = some run := by
      apply ih
      intro pre2 c rest2 hs hc
      exact Nat.le_of_succ_le_succ (hleft (x :: pre2) c rest2 (congrArg (List.cons x) hs) hc)
    exact (findColo_cons_none x _ hnone).trans hih

/-- A decidable form of the leftmost condition: no earlier position carries `colo=`
followed by an uppercase letter. -/
theorem leftmost_of_drop (l : List Char) (n : Nat)
    (h : ∀ k, k < n → matchesAt l k = false) :
    ∀ pre2 c rest2, l = pre2 ++ "colo=".data ++ c :: rest2 → isUpperAZ c = true →
      n ≤ pre2.length := by
  intro pre2 c rest2 hl hc
  by_contra hlt
  push_neg at hlt
  have hk := h pre2.length hlt
  subst hl
  have h1 : "colo=".data.isPrefixOf ((pre2 ++ "colo=".data ++ c :: rest2).drop pre2.length) =
      true := by
    rw [List.isPrefixOf_iff_prefix, List.append_assoc, List.drop_left]
    exact List.prefix_append _ _
  have h2 : ((pre2 ++ "colo=".data ++ c :: rest2).drop (pre2.length + 5)).head? = some c := by
    have : pre2.length + 5 = (pre2 ++ "colo=".data).length := by simp
    rw [this, List.drop_left]
    rfl
  unfold matchesAt at hk
  rw [h1, h2] at hk
  simp [hc] at hk

theorem sends_append (p q : List Instr) : sends (p ++ q) = sends p ++ sends q := by
  induction p with
  | nil => rfl
  | cons i rest ih => cases i <;> simp [sends, ih]

theorem sends_map_emit (ev : List Event) : sends (ev.map Instr.emit) = [] := by
  induction ev with
  | nil => rfl
  | cons e rest ih => simpa [sends] using ih

theorem sends_deferredBlock : sends deferredBlock = [] := rfl

theorem stringsContains_iff (s sub : String) :
    stringsContains s sub = true ↔ sub.data <:+: s.data :=
  containsList_iff _ _

theorem FindStringSubmatch_none (body : String)
    (h : ¬ ∃ pre c rest, body.data = pre ++ "colo=".data ++ c :: rest ∧ isUpperAZ c = true) :
    FindStringSubmatch body = [] := by
  simp [FindStringSubmatch, findColo_none body.data h]

theorem FindStringSubmatch_some (body : String) (run : List Char)
    (h : findColo body.data = some run) :
    FindStringSubmatch body = [String.mk ("colo=".data ++ run), String.mk run] := by
  simp [FindStringSubmatch, h]

theorem findColo_some_of_exists (s : List Char)
    (h : ∃ pre c rest, s = pre ++ "colo=".data ++ c :: rest ∧ isUpperAZ c = true) :
    ∃ run, findColo s = some run := by
  cases hf : findColo s with
  | some run => exact ⟨run, rfl⟩
  | none =>
    exfalso
    obtain ⟨pre, c, rest, hs, hc⟩ := h
    subst hs
    induction pre with
    | nil =>
      have hm : matchHere ("colo=".data ++ c :: rest) = some ((c :: rest).takeWhile isUpperAZ) := by
        unfold matchHere
        have hp : "colo=".data.isPrefixOf ("colo=".data ++ c :: rest) = true := by
          rw [List.isPrefixOf_iff_prefix]
          exact List.prefix_append _ _
        have hd : ("colo=".data ++ c :: rest).drop 5 = c :: rest := by
          rw [List.drop_append_of_le_length (by decide)]
          rfl
        rw [if_pos hp]
        simp only [hd, List.takeWhile_cons, hc, if_true]
        rfl
      have hg : findColo ([] ++ "colo=".data ++ c :: rest) = some _ :=
        findColo_cons_some 'c' _ _ hm
      exact Option.noConfusion (hg.symm.trans hf)
    | cons x xs ih =>
      apply ih
      cases hm : matchHere (x :: (xs ++ "colo=".data ++ c :: rest)) with
      | none => exact (findColo_cons_none x _ hm).symm.trans hf
      | some r =>
        have hg : findColo (x :: xs ++ "colo=".data ++ c :: rest) = some r :=
          findColo_cons_some x _ r hm
        exact Option.noConfusion (hg.symm.trans hf)

/-! ### The claims about the probes -/

/-- The three ways `TestWebSocketDelay` can end. -/
theorem TestWebSocketDelay_cases (st : CFSpeedTest) (ipPair : IpPair) (w : World) :
    (∃ b msg, (TestWebSocketDelay st ipPair w).1 = some (b, some msg) ∧
        (b = true ↔ w.wsDial = none ∧ w.wsErr = none ∧ w.wsResp = some 101)) ∨
      ((TestWebSocketDelay st ipPair w).1 = none ∧ w.wsDial = none ∧
        w.newRequest (wsRequestURL st) = false) := by
  unfold TestWebSocketDelay
  cases hd : w.wsDial with
  | some err => exact Or.inl ⟨false, err, rfl, by simp⟩
  | none =>
    cases hr : w.newRequest (wsRequestURL st) with
    | false => exact Or.inr ⟨by simp, rfl, rfl⟩
    | true =>
      refine Or.inl ⟨decide (w.wsErr = none) && decide (w.wsResp = some 101),
        "websocket: " ++ (match w.wsErr with
          | some msg => msg
          | none => "%!s(<nil>)"), ?_, ?_⟩
      · simp only [if_true, Errorf_s]
      · simp

/-- C10: `TestWebSocketDelay` never returns a nil error.  Whatever the network does,
either the call returns a boolean together with a non-nil error, the boolean being true
exactly when the dial succeeded, `client.Do` gave no error and the status is 101; or it
does not return at all, which happens only when the dial succeeded and
`http.NewRequest` rejected the URL. -/
theorem TestWebSocketDelay_error_non_nil (st : CFSpeedTest) (ipPair : IpPair) (w : World) :
    (∃ b msg, (TestWebSocketDelay st ipPair w).1 = some (b, some msg) ∧
        (b = true ↔ w.wsDial = none ∧ w.wsErr = none ∧ w.wsResp = some 101)) ∨
      ((TestWebSocketDelay st ipPair w).1 = none ∧ w.wsDial = none ∧
        w.newRequest (wsRequestURL st) = false) :=
  TestWebSocketDelay_cases st ipPair w

/-- C5: when the trace fetch succeeds with a body that lacks the marker
`uag=Mozilla/5.0`, or in which no `colo=` is followed by an uppercase letter,
`TestDelayOnce` returns a nil result and the error `not match`, and the only network call
it made is the trace fetch (the upgrade probe is not invoked). -/
theorem TestDelayOnce_not_match (st : CFSpeedTest) (ipPair : IpPair) (w : World)
    (dr : DelayResult) (hfetch : w.h1 = .ok dr)
    (h : ¬ ("uag=Mozilla/5.0".data <:+: dr.body.data) ∨
      ¬ ∃ pre c rest, dr.body.data = pre ++ "colo=".data ++ c :: rest ∧ isUpperAZ c = true) :
    TestDelayOnce st ipPair w = (some (none, some "not match"), [.traceFetch ipPair]) ∧
      Event.upgradeProbe ipPair ∉ (TestDelayOnce st ipPair w).2 := by
  have key : TestDelayOnce st ipPair w =
      (some (none, some "not match"), [.traceFetch ipPair]) := by
    unfold TestDelayOnce
    rw [hfetch]
    simp only
    by_cases hc : stringsContains dr.body "uag=Mozilla/5.0" = true
    · rw [if_pos hc]
      have hno : ¬ ∃ pre c rest,
          dr.body.data = pre ++ "colo=".data ++ c :: rest ∧ isUpperAZ c = true := by
        rcases h with h | h
        · exact absurd ((stringsContains_iff _ _).mp hc) h
        · exact h
      rw [FindStringSubmatch_none dr.body hno]
      simp
    · rw [if_neg hc]
  refine ⟨key, ?_⟩
  rw [key]
  simp

/-- C4: when the trace fetch succeeds with a body that carries the marker and a
`colo=<CODE>` token, `TestWebSocket` is enabled and `TestWebSocketDelay` returns false
with error `e`, then `TestDelayOnce` returns a nil result with that error, which is not
nil; and a worker probing with `TestDelayOnce` sends nothing on the result channel. -/
theorem TestDelayOnce_upgrade_failed (st : CFSpeedTest) (ipPair : IpPair) (w : World)
    (dr : DelayResult) (e : GoError) (hfetch : w.h1 = .ok dr)
    (hmark : "uag=Mozilla/5.0".data <:+: dr.body.data)
    (hcolo : ∃ pre c rest, dr.body.data = pre ++ "colo=".data ++ c :: rest ∧ isUpperAZ c = true)
    (hws : st.TestWebSocket = true)
    (hfail : (TestWebSocketDelay st ipPair w).1 = some (false, e)) :
    (TestDelayOnce st ipPair w).1 = some (none, e) ∧ e ≠ none ∧
      (st.DelayTestType = 0 → sends (workerProgram st ipPair w) = []) := by
  have hc : stringsContains dr.body "uag=Mozilla/5.0" = true := (stringsContains_iff _ _).mpr hmark
  obtain ⟨run, hrun⟩ := findColo_some_of_exists dr.body.data hcolo
  have hne : e ≠ none := by
    rcases TestWebSocketDelay_cases st ipPair w with ⟨b, msg, hb, _⟩ | ⟨hn, _⟩
    · rw [hb] at hfail
      simp only [Option.some.injEq, Prod.mk.injEq] at hfail
      rw [← hfail.2]
      simp
    · rw [hn] at hfail
      exact Option.noConfusion hfail
  have key : ∃ ev, TestDelayOnce st ipPair w = (some (none, e), ev) := by
    unfold TestDelayOnce
    rw [hfetch]
    simp only
    rw [if_pos hc, FindStringSubmatch_some dr.body run hrun]
    simp only [List.length_cons, List.length_nil, hws, if_true]
    rcases hw : TestWebSocketDelay st ipPair w with ⟨r, ev⟩
    rw [hw] at hfail
    simp only at hfail
    subst hfail
    simp
  obtain ⟨ev, hev⟩ := key
  refine ⟨by rw [hev], hne, ?_⟩
  intro ht
  unfold workerProgram
  have h1 : ¬ st.DelayTestType = 1 := by omega
  rw [if_neg h1, if_pos ht, hev]
  simp only [sends_append, sends_map_emit, sends_deferredBlock, List.nil_append, List.append_nil]
  cases e with
  | none => exact absurd rfl hne
  | some msg =>
    unfold afterProbe
    by_cases hv : st.VerboseMode = true <;> simp [hv, sends]

/-- C6: a successful `TestDelayOnce`.  The trace fetch returned `dr`, the body carries the
marker, its leftmost match of `colo=([A-Z]+)` starts after `pre` and captures `run`
(non-empty, uppercase only, not followed by a further uppercase letter), and the upgrade
check is disabled or returns true.  Then the call returns a result and a nil error; the
result carries the endpoint, the latency of the trace fetch, `run` as data-center code,
and the `LocationMap` entry of that code when there is one, three empty strings when
there is none. -/
theorem TestDelayOnce_success (st : CFSpeedTest) (ipPair : IpPair) (w : World)
    (dr : DelayResult) (pre run rest : List Char) (hfetch : w.h1 = .ok dr)
    (hmark : "uag=Mozilla/5.0".data <:+: dr.body.data)
    (hbody : dr.body.data = pre ++ "colo=".data ++ run ++ rest)
    (hne : run ≠ [])
    (hup : ∀ c ∈ run, isUpperAZ c = true)
    (hmax : ∀ c, rest.head? = some c → isUpperAZ c = false)
    (hleft : ∀ pre2 c rest2, dr.body.data = pre2 ++ "colo=".data ++ c :: rest2 →
      isUpperAZ c = true → pre.length ≤ pre2.length)
    (hws : st.TestWebSocket = false ∨ ∃ e, (TestWebSocketDelay st ipPair w).1 = some (true, e)) :
    ∃ r, (TestDelayOnce st ipPair w).1 = some (some r, none) ∧
      r.dataCenter = String.mk run ∧
      r.ip = ipPair.ip ∧ r.port = ipPair.port ∧
      r.tcpDuration = dr.duration ∧ r.latency = toString (Int.tdiv dr.duration 1000000) ∧
      (∀ loc, st.LocationMap (String.mk run) = some loc →
        r.region = loc.Region ∧ r.country = loc.Cca2 ∧ r.city = loc.City) ∧
      (st.LocationMap (String.mk run) = none →
        r.region = "" ∧ r.country = "" ∧ r.city = "") := by
  have hc : stringsContains dr.body "uag=Mozilla/5.0" = true := (stringsContains_iff _ _).mpr hmark
  have hrun : findColo dr.body.data = some run := by
    rw [hbody]
    exact findColo_leftmost pre run rest hne hup hmax (by rw [← hbody]; exact hleft)
  have key : (TestDelayOnce st ipPair w).1 =
      some (some (resolveLocation st ipPair (String.mk run) dr.duration), none) := by
    unfold TestDelayOnce
    rw [hfetch]
    simp only
    rw [if_pos hc, FindStringSubmatch_some dr.body run hrun]
    simp only [List.length_cons, List.length_nil]
    rcases hws with hoff | ⟨e, he⟩
    · simp [hoff]
    · by_cases hon : st.TestWebSocket = true
      · rcases hw : TestWebSocketDelay st ipPair w with ⟨r, ev⟩
        rw [hw] at he
        simp only at he
        subst he
        simp [hon]
      · simp [hon]
  refine ⟨resolveLocation st ipPair (String.mk run) dr.duration, key, ?_⟩
  unfold resolveLocation
  cases hl : st.LocationMap (String.mk run) with
  | none => simp [Sprintf_d, Milliseconds]
  | some loc => simp [Sprintf_d, Milliseconds]

/-- C1: what a worker does with a non-nil probe result `r`.  If `FilterIATASet` is nil
or contains `r.dataCenter`, the worker sends `r` once on the result channel and increments
`okCount` once; otherwise it sends nothing and does not touch `okCount`. -/
theorem afterProbe_filter (st : CFSpeedTest) (ipPair : IpPair) (result : Option Result)
    (r : Result) (err : GoError) (hres : result = some r) :
    ((st.FilterIATASet = none ∨ ∃ set, st.FilterIATASet = some set ∧ r.dataCenter ∈ set) →
        sends (afterProbe st ipPair result err) = [r] ∧
        nOk (afterProbe st ipPair result err) = 1) ∧
      (¬ (st.FilterIATASet = none ∨ ∃ set, st.FilterIATASet = some set ∧ r.dataCenter ∈ set) →
        sends (afterProbe st ipPair result err) = [] ∧
        nOk (afterProbe st ipPair result err) = 0) := by
  subst hres
  have herr : ∀ q : List Instr, q = (match err with
      | some msg => if st.VerboseMode then [Instr.emit (.ipError ipPair msg)] else []
      | none => []) → sends q = [] ∧ nOk q = 0 := by
    intro q hq
    subst hq
    cases err with
    | none => exact ⟨rfl, rfl⟩
    | some msg => by_cases hv : st.VerboseMode = true <;> simp [hv, sends, nOk]
  obtain ⟨hs, hn⟩ := herr _ rfl
  unfold afterProbe
  simp only [sends_append, nOk, List.count_append] at hs hn ⊢
  rw [hs, hn]
  cases hf : st.FilterIATASet with
  | none => simp [sends]
  | some set =>
    by_cases hm : r.dataCenter ∈ set
    · simp [filterIndex, hm, sends]
    · simp [filterIndex, hm, sends]

/-- C1, witness: with `FilterIATASet` holding `LAX` and `SJC`, a result whose data center
is `ORD` is not sent and `okCount` is not incremented. -/
theorem afterProbe_filter_witness :
    sends (afterProbe filterConfig ipA (some ordResult) none) = [] ∧
      nOk (afterProbe filterConfig ipA (some ordResult) none) = 0 :=
  (afterProbe_filter filterConfig ipA (some ordResult) ordResult none rfl).2 (by
    rintro (h | ⟨set, h1, h2⟩)
    · exact Option.noConfusion h
    · cases h1
      revert h2
      decide)

/-! ## Theorems: worker programs -/

theorem count_map_emit (ev : List Event) (i : Instr) (h : ∀ e, i ≠ .emit e) :
    (ev.map Instr.emit).count i = 0 := by
  apply List.count_eq_zero_of_not_mem
  intro hm
  obtain ⟨e, _, he⟩ := List.mem_map.mp hm
  exact h e he.symm

theorem sends_length_le_one_afterProbe (st : CFSpeedTest) (ipPair : IpPair)
    (res : Option Result) (err : GoError) :
    nOk (afterProbe st ipPair res err) = (sends (afterProbe st ipPair res err)).length ∧
      (sends (afterProbe st ipPair res err)).length ≤ 1 ∧
      nCount (afterProbe st ipPair res err) = 0 ∧
      nDone (afterProbe st ipPair res err) = 0 ∧
      nRel (afterProbe st ipPair res err) = 0 := by
  unfold afterProbe
  cases res <;> cases err <;>
    by_cases hv : st.VerboseMode = true <;>
    simp only [hv] <;>
    (try split) <;> simp [sends, nOk, nCount, nDone, nRel]

theorem nOk_append (p q : List Instr) : nOk (p ++ q) = nOk p + nOk q := List.count_append _ _ _

theorem nCount_append (p q : List Instr) : nCount (p ++ q) = nCount p + nCount q :=
  List.count_append _ _ _

theorem nDone_append (p q : List Instr) : nDone (p ++ q) = nDone p + nDone q :=
  List.count_append _ _ _

theorem nRel_append (p q : List Instr) : nRel (p ++ q) = nRel p + nRel q :=
  List.count_append _ _ _

theorem wfProg_good {p : List Instr} (h : wfProg p) : Good p := by
  cases p with
  | nil => simp [Good, nOk, nDone, nRel, sends]
  | cons i rest => exact h.1

theorem wfProg_tail {i : Instr} {rest : List Instr} (h : wfProg (i :: rest)) : wfProg rest :=
  h.2

theorem wfProg_emits (ev : List Event) (q : List Instr) (h : wfProg q) :
    wfProg (ev.map Instr.emit ++ q) := by
  induction ev with
  | nil => exact h
  | cons e rest ih =>
    refine ⟨?_, ih⟩
    have hg := wfProg_good ih
    simpa [Good, nOk, nDone, nRel, sends] using hg

theorem wfProg_deferredBlock (tail : List Instr) (h : tail = [] ∨ tail = [.crash]) :
    wfProg (deferredBlock ++ tail) := by
  rcases h with rfl | rfl <;>
    simp [deferredBlock, wfProg, Good, nOk, nDone, nRel, sends]

theorem wfProg_afterProbe (st : CFSpeedTest) (ipPair : IpPair) (res : Option Result)
    (err : GoError) : wfProg (afterProbe st ipPair res err ++ deferredBlock) := by
  unfold afterProbe
  cases res <;> cases err <;>
    by_cases hv : st.VerboseMode = true <;>
    simp only [hv] <;>
    (try split) <;> simp [deferredBlock, wfProg, Good, nOk, nDone, nRel, sends]

/-- The shape of a worker program: effects of the probe, then either the treatment of
the result and the deferred function, or the deferred function alone, possibly followed by
the crash. -/
theorem workerProgram_shape (st : CFSpeedTest) (ipPair : IpPair) (w : World) :
    (∃ ev res err, workerProgram st ipPair w =
        List.map Instr.emit ev ++ (afterProbe st ipPair res err ++ deferredBlock)) ∨
      (∃ ev tail, workerProgram st ipPair w =
        List.map Instr.emit ev ++ (deferredBlock ++ tail) ∧ (tail = [] ∨ tail = [.crash])) := by
  unfold workerProgram
  split
  · exact Or.inl ⟨(TestTCP ipPair w).2, (TestTCP ipPair w).1.1, (TestTCP ipPair w).1.2,
      by simp⟩
  · split
    · split
      · rename_i result err ev _
        exact Or.inl ⟨ev, result, err, by simp⟩
      · rename_i ev _
        exact Or.inr ⟨ev, [.crash], by simp, Or.inr rfl⟩
    · exact Or.inr ⟨[], [], by simp, Or.inl rfl⟩

theorem workerProgram_facts (st : CFSpeedTest) (ipPair : IpPair) (w : World) :
    wfProg (workerProgram st ipPair w) ∧
      nCount (workerProgram st ipPair w) = 1 ∧
      nDone (workerProgram st ipPair w) = 1 ∧
      nRel (workerProgram st ipPair w) = 1 ∧
      nOk (workerProgram st ipPair w) = (sends (workerProgram st ipPair w)).length ∧
      (sends (workerProgram st ipPair w)).length ≤ 1 := by
  have hdef : nCount deferredBlock = 1 ∧ nDone deferredBlock = 1 ∧ nRel deferredBlock = 1 ∧
      nOk deferredBlock = 0 := by
    simp [deferredBlock, nCount, nDone, nRel, nOk]
  have hev : ∀ ev : List Event, nCount (ev.map Instr.emit) = 0 ∧
      nDone (ev.map Instr.emit) = 0 ∧
      nRel (ev.map Instr.emit) = 0 ∧ nOk (ev.map Instr.emit) = 0 := fun ev =>
    ⟨count_map_emit ev _ (by simp), count_map_emit ev _ (by simp),
      count_map_emit ev _ (by simp), count_map_emit ev _ (by simp)⟩
  rcases workerProgram_shape st ipPair w with ⟨ev, res, err, hp⟩ | ⟨ev, tail, hp, ht⟩
  · rw [hp]
    obtain ⟨h1, h2, h3, h4, h5⟩ := sends_length_le_one_afterProbe st ipPair res err
    obtain ⟨e1, e2, e3, e4⟩ := hev ev
    obtain ⟨d1, d2, d3, d4⟩ := hdef
    refine ⟨wfProg_emits ev _ (wfProg_afterProbe st ipPair res err), ?_, ?_, ?_, ?_, ?_⟩
    · rw [nCount_append, nCount_append, e1, h3, d1]
    · rw [nDone_append, nDone_append, e2, h4, d2]
    · rw [nRel_append, nRel_append, e3, h5, d3]
    · rw [nOk_append, nOk_append, e4, h1, d4, sends_append, sends_append, sends_map_emit,
        sends_deferredBlock]
      simp
    · rw [sends_append, sends_append, sends_map_emit, sends_deferredBlock]
      simpa using h2
  · rw [hp]
    obtain ⟨e1, e2, e3, e4⟩ := hev ev
    obtain ⟨d1, d2, d3, d4⟩ := hdef
    have htail : nCount tail = 0 ∧ nDone tail = 0 ∧ nRel tail = 0 ∧ nOk tail = 0 ∧
        sends tail = [] := by
      rcases ht with rfl | rfl <;> simp [nCount, nDone, nRel, nOk, sends]
    obtain ⟨t1, t2, t3, t4, t5⟩ := htail
    refine ⟨wfProg_emits ev _ (wfProg_deferredBlock tail ht), ?_, ?_, ?_, ?_, ?_⟩
    · rw [nCount_append, nCount_append, e1, d1, t1]
    · rw [nDone_append, nDone_append, e2, d2, t2]
    · rw [nRel_append, nRel_append, e3, d3, t3]
    · rw [nOk_append, nOk_append, e4, d4, t4, sends_append, sends_append, sends_map_emit,
        sends_deferredBlock, t5]
      rfl
    · rw [sends_append, sends_append, sends_map_emit, sends_deferredBlock, t5]
      simp

/-! ## Theorems: measures under the steps -/

theorem sum_map_set {M : Type} [AddCommMonoid M] (g : Worker → M) :
    ∀ (ws : List Worker) (i : Nat) (w w2 : Worker), ws.get? i = some w →
      ((ws.set i w2).map g).sum + g w = (ws.map g).sum + g w2
  | [], i, w, w2, h => by simp at h
  | x :: ws, 0, w, w2, h => by
    simp only [List.get?_cons_zero, Option.some.injEq] at h
    subst h
    simp only [List.set_cons_zero, List.map_cons, List.sum_cons]
    rw [add_comm (g w2), add_comm (g x), add_assoc, add_assoc, add_comm (g w2)]
  | x :: ws, i + 1, w, w2, h => by
    simp only [List.get?_cons_succ] at h
    simp only [List.set_cons_succ, List.map_cons, List.sum_cons]
    rw [add_assoc, sum_map_set g ws i w w2 h, add_assoc]

theorem tot_count_set (a : Instr) (ws : List Worker) (i : Nat) (ipPair : IpPair) (ins : Instr)
    (rest : List Instr) (h : ws.get? i = some ⟨ipPair, ins :: rest⟩) :
    tot (fun p => p.count a) (ws.set i ⟨ipPair, rest⟩) + (if ins = a then 1 else 0) =
      tot (fun p => p.count a) ws := by
  have := sum_map_set (fun w => w.prog.count a) ws i _ ⟨ipPair, rest⟩ h
  simp only [List.count_cons, beq_iff_eq] at this
  simp only [tot]
  omega

theorem pendingSends_set (ws : List Worker) (i : Nat) (ipPair : IpPair) (ins : Instr)
    (rest : List Instr) (h : ws.get? i = some ⟨ipPair, ins :: rest⟩) :
    pendingSends (ws.set i ⟨ipPair, rest⟩) + (↑(sends [ins]) : Multiset Result) =
      pendingSends ws := by
  have := sum_map_set (fun w => (↑(sends w.prog) : Multiset Result)) ws i _ ⟨ipPair, rest⟩ h
  unfold pendingSends
  have hs : (↑(sends (ins :: rest)) : Multiset Result) = ↑(sends [ins]) + ↑(sends rest) := by
    have : sends (ins :: rest) = sends [ins] ++ sends rest := sends_append [ins] rest
    rw [this]
    rfl
  simp only [hs] at this
  rw [← add_assoc] at this
  exact add_right_cancel this

theorem map_ipPair_set (ws : List Worker) (i : Nat) (ipPair : IpPair) (p q : List Instr)
    (h : ws.get? i = some ⟨ipPair, p⟩) :
    (ws.set i ⟨ipPair, q⟩).map (fun w => w.ipPair) = ws.map (fun w => w.ipPair) := by
  induction ws generalizing i with
  | nil => rfl
  | cons x xs ih =>
    cases i with
    | zero =>
      simp only [List.get?_cons_zero, Option.some.injEq] at h
      subst h
      rfl
    | succ j =>
      simp only [List.get?_cons_succ] at h
      simp only [List.set_cons_succ, List.map_cons, ih j h]

theorem wf_set (ws : List Worker) (i : Nat) (ipPair : IpPair) (ins : Instr)
    (rest : List Instr) (h : ws.get? i = some ⟨ipPair, ins :: rest⟩)
    (hwf : ∀ w ∈ ws, wfProg w.prog) : ∀ w ∈ ws.set i ⟨ipPair, rest⟩, wfProg w.prog := by
  intro w hw
  rcases List.mem_or_eq_of_mem_set hw with hm | rfl
  · exact hwf w hm
  · exact wfProg_tail (hwf _ (List.get?_mem h))

theorem tot_append (f : List Instr → Nat) (ws : List Worker) (w : Worker) :
    tot f (ws ++ [w]) = tot f ws + f w.prog := by
  simp [tot]

theorem pendingSends_append (ws : List Worker) (w : Worker) :
    pendingSends (ws ++ [w]) = pendingSends ws + ↑(sends w.prog) := by
  simp [pendingSends]

theorem tot_le_tot (f g : List Instr → Nat) (ws : List Worker)
    (h : ∀ w ∈ ws, f w.prog ≤ g w.prog) : tot f ws ≤ tot g ws := by
  induction ws with
  | nil => simp [tot]
  | cons x xs ih =>
    have h1 := h x (List.mem_cons_self _ _)
    have h2 := ih (fun w hw => h w (List.mem_cons_of_mem _ hw))
    simp only [tot, List.map_cons, List.sum_cons] at h2 ⊢
    omega

theorem pendingSends_eq_zero (ws : List Worker) (h : ∀ w ∈ ws, sends w.prog = []) :
    pendingSends ws = 0 := by
  induction ws with
  | nil => rfl
  | cons x xs ih =>
    have h1 := h x (List.mem_cons_self _ _)
    have h2 := ih (fun w hw => h w (List.mem_cons_of_mem _ hw))
    simp only [pendingSends, List.map_cons, List.sum_cons] at h2 ⊢
    rw [h1, h2]
    rfl

theorem tot_eq_zero (f : List Instr → Nat) (ws : List Worker) (h : tot f ws = 0) :
    ∀ w ∈ ws, f w.prog = 0 := by
  induction ws with
  | nil => intro w hw; cases hw
  | cons x xs ih =>
    simp only [tot, List.map_cons, List.sum_cons] at h
    intro w hw
    rcases List.mem_cons.mp hw with rfl | hm
    · omega
    · exact ih (by unfold tot; omega) w hm

theorem acceptedFrom_append (sys : Sys) (k : Nat) (xs ys : List IpPair) :
    acceptedFrom sys k (xs ++ ys) =
      acceptedFrom sys k xs ++ acceptedFrom sys (k + xs.length) ys := by
  induction xs generalizing k with
  | nil => simp [acceptedFrom]
  | cons x rest ih =>
    have h := ih (k + 1)
    rw [show k + 1 + rest.length = k + (rest.length + 1) by omega] at h
    show sends _ ++ acceptedFrom sys (k + 1) (rest ++ ys) = _
    rw [h]
    simp [acceptedFrom]

theorem acceptedFrom_length_le (sys : Sys) (k : Nat) (xs : List IpPair) :
    (acceptedFrom sys k xs).length ≤ xs.length := by
  induction xs generalizing k with
  | nil => simp [acceptedFrom]
  | cons x rest ih =>
    have h1 := (workerProgram_facts sys.st x (sys.world k x)).2.2.2.2.2
    have h2 := ih (k + 1)
    simp only [acceptedFrom, List.length_append, List.length_cons]
    omega

theorem enoughResults_mono (st : CFSpeedTest) (n : Nat) (h : enoughResults st n = true) :
    enoughResults st (n + 1) = true := by
  simp only [enoughResults, Bool.and_eq_true, decide_eq_true_eq] at h ⊢
  refine ⟨h.1, ?_⟩
  push_cast
  omega

theorem worker_deltas (ws : List Worker) (i : Nat) (ipPair : IpPair) (ins : Instr)
    (rest : List Instr) (h : ws.get? i = some ⟨ipPair, ins :: rest⟩) :
    tot nOk (ws.set i ⟨ipPair, rest⟩) + (if ins = .okAdd then 1 else 0) = tot nOk ws ∧
      tot nDone (ws.set i ⟨ipPair, rest⟩) + (if ins = .wgDone then 1 else 0) = tot nDone ws ∧
      tot nCount (ws.set i ⟨ipPair, rest⟩) + (if ins = .countAdd then 1 else 0) =
        tot nCount ws ∧
      tot nRel (ws.set i ⟨ipPair, rest⟩) + (if ins = .release then 1 else 0) = tot nRel ws ∧
      pendingSends (ws.set i ⟨ipPair, rest⟩) + (↑(sends [ins]) : Multiset Result) =
        pendingSends ws ∧
      (ws.set i ⟨ipPair, rest⟩).map (fun w => w.ipPair) = ws.map (fun w => w.ipPair) ∧
      (ws.set i ⟨ipPair, rest⟩).length = ws.length :=
  ⟨tot_count_set .okAdd ws i ipPair ins rest h, tot_count_set .wgDone ws i ipPair ins rest h,
    tot_count_set .countAdd ws i ipPair ins rest h, tot_count_set .release ws i ipPair ins rest h,
    pendingSends_set ws i ipPair ins rest h, map_ipPair_set ws i ipPair _ _ h,
    List.length_set _ _ _⟩

theorem Inv_init (sys : Sys) : Inv sys (init sys) := by
  refine ⟨?_, ?_, ?_, ?_, ?_, ?_, ?_, ?_, ?_, ?_, ?_⟩ <;>
    simp [init, acq, tot, pendingSends, acceptedFrom, afterLoop, afterWait]
  intro h
  omega

/-- A step that leaves the loop data, the workers, the channel and the counters alone
preserves the invariant. -/
theorem Inv_of_same (sys : Sys) (s t : State) (hinv : Inv sys s) (e1 : t.todo = s.todo)
    (e2 : t.workers = s.workers) (e3 : t.resultChan = s.resultChan) (e4 : t.count = s.count)
    (e5 : t.okCount = s.okCount) (e6 : t.wg = s.wg) (e7 : t.thread = s.thread)
    (e8 : acq t.pc = acq s.pc) (e9 : afterLoop t.pc → afterLoop s.pc)
    (e10 : afterWait t.pc → afterWait s.pc) : Inv sys t := by
  obtain ⟨h1, h2, h3, h4, h5, h6, h7, h8, h9, h10, h11⟩ := hinv
  refine ⟨?_, ?_, ?_, ?_, ?_, ?_, ?_, ?_, ?_, ?_, ?_⟩
  · rw [e1, e2, e8]; exact h1
  · rw [e2]; exact h2
  · rw [e2, e6, e8]; exact h3
  · rw [e2, e7]; exact h4
  · rw [e7]; exact h5
  · rw [e2, e4]; exact h6
  · rw [e2, e5]; exact h7
  · rw [e2, e3]; exact h8
  · rw [e2, e5, e8]; exact h9
  · intro ha
    rw [e1, e5]
    exact h10 (e9 ha)
  · intro ha
    rw [e6]
    exact h11 (e10 ha)

theorem Inv_tick (sys : Sys) (s t : State) (hinv : Inv sys s) (h : stepTick sys s = some t) :
    Inv sys t := by
  unfold stepTick at h
  split at h
  · exact Option.noConfusion h
  · split at h <;>
      · simp only [Option.some.injEq] at h
        subst h
        exact Inv_of_same sys s _ hinv rfl rfl rfl rfl rfl rfl rfl rfl id id

theorem Inv_worker (sys : Sys) (i : Nat) (s t : State) (hinv : Inv sys s)
    (h : stepWorker sys i s = some t) : Inv sys t := by
  unfold stepWorker at h
  split at h
  case h_2 => exact Option.noConfusion h
  case h_1 ipPair ins rest hget =>
    obtain ⟨dOk, dDone, dCount, dRel, dSend, dMap, dLen⟩ :=
      worker_deltas s.workers i ipPair ins rest hget
    have hwf := wf_set s.workers i ipPair ins rest hget hinv.wf
    obtain ⟨h1, h2, h3, h4, h5, h6, h7, h8, h9, h10, h11⟩ := hinv
    cases ins with
    | emit e =>
      simp only [execInstr, Option.map_some', Option.some.injEq] at h
      subst h
      simp only [reduceCtorEq, if_false, Nat.add_zero, sends, Multiset.coe_nil, add_zero]
        at dOk dDone dCount dRel dSend
      refine ⟨?_, hwf, ?_, ?_, h5, ?_, ?_, ?_, ?_, h10, h11⟩ <;>
        simp only [dMap, dOk, dDone, dCount, dRel, dSend, dLen] <;> assumption
    | send r =>
      simp only [execInstr] at h
      split at h
      · exact Option.noConfusion h
      split at h
      swap
      · exact Option.noConfusion h
      simp only [Option.map_some', Option.some.injEq] at h
      subst h
      simp only [reduceCtorEq, if_false, Nat.add_zero, sends]
        at dOk dDone dCount dRel dSend
      refine ⟨?_, hwf, ?_, ?_, h5, ?_, ?_, ?_, ?_, h10, h11⟩ <;>
        simp only [dMap, dOk, dDone, dCount, dRel, dLen] <;> try assumption
      rw [← h8, ← dSend, ← Multiset.coe_add, add_assoc, add_comm (↑[r] : Multiset Result)]
    | okAdd =>
      simp only [execInstr, Option.map_some', Option.some.injEq] at h
      subst h
      simp only [reduceCtorEq, if_false, if_true, Nat.add_zero, sends, Multiset.coe_nil,
        add_zero] at dOk dDone dCount dRel dSend
      refine ⟨?_, hwf, ?_, ?_, h5, ?_, ?_, ?_, ?_, ?_, h11⟩ <;>
        simp only [dMap, dDone, dCount, dRel, dSend, dLen] <;> try assumption
      · rw [← h7, ← dOk]
        omega
      · intro hk
        have := h9 hk
        rw [← dOk] at this
        have e : s.okCount + 1 + tot nOk (s.workers.set i ⟨ipPair, rest⟩) + (acq s.pc).length =
            s.okCount + (tot nOk (s.workers.set i ⟨ipPair, rest⟩) + 1) + (acq s.pc).length := by
          omega
        rw [e]
        exact this
      · intro hl
        rcases h10 hl with h | h
        · exact Or.inl h
        · exact Or.inr (enoughResults_mono _ _ h)
    | wgDone =>
      simp only [execInstr] at h
      split at h
      · exact Option.noConfusion h
      rename_i hwg
      simp only [Option.map_some', Option.some.injEq] at h
      subst h
      simp only [reduceCtorEq, if_false, if_true, Nat.add_zero, sends, Multiset.coe_nil,
        add_zero] at dOk dDone dCount dRel dSend
      refine ⟨?_, hwf, ?_, ?_, h5, ?_, ?_, ?_, ?_, h10, ?_⟩ <;>
        simp only [dMap, dOk, dCount, dRel, dSend, dLen] <;> try assumption
      · omega
      · intro ha
        have := h11 ha
        omega
    | countAdd =>
      simp only [execInstr, Option.map_some', Option.some.injEq] at h
      subst h
      simp only [reduceCtorEq, if_false, if_true, Nat.add_zero, sends, Multiset.coe_nil,
        add_zero] at dOk dDone dCount dRel dSend
      refine ⟨?_, hwf, ?_, ?_, h5, ?_, ?_, ?_, ?_, h10, h11⟩ <;>
        simp only [dMap, dOk, dDone, dRel, dSend, dLen] <;> try assumption
      omega
    | release =>
      simp only [execInstr] at h
      split at h
      · exact Option.noConfusion h
      rename_i hth
      simp only [Option.map_some', Option.some.injEq] at h
      subst h
      simp only [reduceCtorEq, if_false, if_true, Nat.add_zero, sends, Multiset.coe_nil,
        add_zero] at dOk dDone dCount dRel dSend
      refine ⟨?_, hwf, ?_, ?_, ?_, ?_, ?_, ?_, ?_, h10, h11⟩ <;>
        simp only [dMap, dOk, dDone, dCount, dSend, dLen] <;> try assumption
      · omega
      · omega
    | crash =>
      simp only [execInstr, Option.map_none'] at h
      exact Option.noConfusion h

theorem tot_nOk_le_thread (sys : Sys) (s : State) (hinv : Inv sys s) :
    tot nOk s.workers ≤ sys.st.MaxThread := by
  have h := tot_le_tot nOk nRel s.workers (fun w hw => (wfProg_good (hinv.wf w hw)).1)
  have h2 := hinv.thread_eq
  have h3 := hinv.thread_le
  omega

theorem Inv_dispatch (sys : Sys) (s t : State) (hinv : Inv sys s)
    (h : stepDispatch sys s = some t) : Inv sys t := by
  have hok := tot_nOk_le_thread sys s hinv
  obtain ⟨h1, h2, h3, h4, h5, h6, h7, h8, h9, h10, h11⟩ := id hinv
  unfold stepDispatch at h
  split at h
  case h_1 hpc =>
    simp only [hpc, acq, List.append_nil, List.length_nil, Nat.add_zero] at h1 h3 h9
    split at h
    case h_1 htodo =>
      simp only [Option.some.injEq] at h
      subst h
      refine ⟨?_, h2, ?_, h4, h5, h6, h7, h8, ?_, ?_, ?_⟩ <;>
        simp only [acq, afterLoop, afterWait, List.append_nil, List.length_nil, Nat.add_zero]
      · exact h1
      · exact h3
      · exact h9
      · exact fun _ => Or.inl htodo
      · exact fun hf => hf.elim
    case h_2 ip rest htodo =>
      split at h
      case isTrue hen =>
        simp only [Option.some.injEq] at h
        subst h
        refine ⟨?_, h2, ?_, h4, h5, h6, h7, h8, ?_, ?_, ?_⟩ <;>
          simp only [acq, afterLoop, afterWait, List.append_nil, List.length_nil, Nat.add_zero]
        · exact h1
        · exact h3
        · exact h9
        · exact fun _ => Or.inr hen
        · exact fun hf => hf.elim
      case isFalse hen =>
        simp only [Option.some.injEq] at h
        subst h
        refine ⟨?_, h2, ?_, h4, h5, h6, h7, h8, ?_, ?_, ?_⟩ <;>
          simp only [acq, afterLoop, afterWait, List.length_singleton]
        · rw [← h1, htodo]
          simp
        · omega
        · intro hk
          simp only [enoughResults, Bool.and_eq_true, decide_eq_true_eq, not_and, not_le] at hen
          have := hen hk
          push_cast
          omega
        · exact fun hf => hf.elim
        · exact fun hf => hf.elim
  case h_2 ip hpc =>
    simp only [hpc, acq, List.length_singleton] at h1 h3 h9
    split at h
    case isFalse => exact Option.noConfusion h
    case isTrue hth =>
      simp only [Option.some.injEq] at h
      subst h
      obtain ⟨f1, f2, f3, f4, f5, f6⟩ :=
        workerProgram_facts sys.st ip (sys.world s.workers.length ip)
      have hacc : acceptedFrom sys 0 (s.workers.map (fun w => w.ipPair) ++ [ip]) =
          acceptedFrom sys 0 (s.workers.map (fun w => w.ipPair)) ++
            sends (workerProgram sys.st ip (sys.world s.workers.length ip)) := by
        rw [acceptedFrom_append]
        simp [acceptedFrom]
      refine ⟨?_, ?_, ?_, ?_, ?_, ?_, ?_, ?_, ?_, ?_, ?_⟩ <;>
        simp only [acq, afterLoop, afterWait, List.append_nil, List.length_nil, Nat.add_zero,
          List.map_append, List.map_cons, List.map_nil, tot_append, pendingSends_append,
          List.length_append, List.length_singleton, hacc]
      · exact h1
      · intro w hw
        rcases List.mem_append.mp hw with hm | hm
        · exact h2 w hm
        · rw [List.mem_singleton.mp hm]
          exact f1
      · omega
      · omega
      · omega
      · omega
      · omega
      · rw [← Multiset.coe_add, ← h8, add_assoc]
      · intro hk
        have := h9 hk
        push_cast at this ⊢
        omega
      · exact fun hf => hf.elim
      · exact fun hf => hf.elim
  case h_3 hpc =>
    simp only [hpc, acq, List.append_nil, List.length_nil, Nat.add_zero, afterLoop,
      forall_true_left] at h1 h3 h9 h10
    split at h
    case isFalse => exact Option.noConfusion h
    case isTrue hwg =>
      simp only [Option.some.injEq] at h
      subst h
      refine ⟨?_, h2, ?_, h4, h5, h6, h7, h8, ?_, ?_, ?_⟩ <;>
        simp only [acq, afterLoop, afterWait, List.append_nil, List.length_nil, Nat.add_zero]
      · exact h1
      · exact h3
      · exact h9
      · exact fun _ => h10
      · exact fun _ => hwg
  case h_4 hpc =>
    split at h
    case isFalse => exact Option.noConfusion h
    case isTrue =>
      simp only [Option.some.injEq] at h
      subst h
      exact Inv_of_same sys s _ hinv rfl rfl rfl rfl rfl rfl rfl (by rw [hpc]; rfl)
        (fun _ => by rw [hpc]; trivial) (fun _ => by rw [hpc]; trivial)
  case h_5 l hpc =>
    split at h <;>
      · simp only [Option.some.injEq] at h
        subst h
        exact Inv_of_same sys s _ hinv rfl rfl rfl rfl rfl rfl rfl (by rw [hpc]; rfl)
          (fun _ => by rw [hpc]; trivial) (fun _ => by rw [hpc]; trivial)
  case h_6 hpc =>
    split at h <;>
      · simp only [Option.some.injEq] at h
        subst h
        exact Inv_of_same sys s _ hinv rfl rfl rfl rfl rfl rfl rfl (by rw [hpc]; rfl)
          (fun _ => by rw [hpc]; trivial) (fun _ => by rw [hpc]; trivial)
  case h_7 hpc =>
    simp only [Option.some.injEq] at h
    subst h
    exact Inv_of_same sys s _ hinv rfl rfl rfl rfl rfl rfl rfl (by rw [hpc]; rfl)
      (fun _ => by rw [hpc]; trivial) (fun _ => by rw [hpc]; trivial)
  case h_8 => exact Option.noConfusion h

theorem Inv_step (sys : Sys) (a : Action) (s t : State) (hinv : Inv sys s)
    (h : step sys a s = some t) : Inv sys t := by
  cases a with
  | dispatch => exact Inv_dispatch sys s t hinv h
  | worker i => exact Inv_worker sys i s t hinv h
  | tick => exact Inv_tick sys s t hinv h

theorem Inv_run (sys : Sys) (sched : List Action) (s t : State) (hinv : Inv sys s)
    (h : run sys sched s = some t) : Inv sys t := by
  induction sched generalizing s with
  | nil =>
    simp only [run, Option.some.injEq] at h
    subst h
    exact hinv
  | cons a rest ih =>
    simp only [run] at h
    cases hs : step sys a s with
    | none => simp [hs] at h
    | some u =>
      rw [hs] at h
      exact ih u (Inv_step sys a s u hinv hs) h

theorem Inv_reachable (sys : Sys) (s : State) (h : Reachable sys s) : Inv sys s := by
  obtain ⟨sched, hs⟩ := h
  exact Inv_run sys sched (init sys) s (Inv_init sys) hs

/-! ## Theorems: `TestDelay` can always return -/

theorem run_append (sys : Sys) (a b : List Action) (s : State) :
    run sys (a ++ b) s = (run sys a s).bind (run sys b) := by
  induction a generalizing s with
  | nil => rfl
  | cons x rest ih =>
    simp only [List.cons_append, run]
    cases step sys x s with
    | none => rfl
    | some u => exact ih u

theorem get?_set_same (ws : List Worker) (i : Nat) (w w2 : Worker) (h : ws.get? i = some w) :
    (ws.set i w2).get? i = some w2 := by
  induction ws generalizing i with
  | nil => simp at h
  | cons x xs ih =>
    cases i with
    | zero => rfl
    | succ j =>
      simp only [List.get?_cons_succ] at h
      simpa only [List.set_cons_succ, List.get?_cons_succ] using ih j h

theorem set_same (ws : List Worker) (i : Nat) (w : Worker) (h : ws.get? i = some w) :
    ws.set i w = ws := by
  induction ws generalizing i with
  | nil => rfl
  | cons x xs ih =>
    cases i with
    | zero =>
      simp only [List.get?_cons_zero, Option.some.injEq] at h
      rw [h]
      rfl
    | succ j =>
      simp only [List.get?_cons_succ] at h
      simp only [List.set_cons_succ, ih j h]

/-- A worker whose program does not crash runs to its end when it is scheduled alone,
provided the channel has room for its sends and the wait group and the slot channel
account for its `wg.Done()` and `<-thread`. -/
theorem worker_runs (sys : Sys) (i : Nat) (ipPair : IpPair) :
    ∀ (p : List Instr) (s : State), s.workers.get? i = some ⟨ipPair, p⟩ →
      Instr.crash ∉ p → s.closed = false →
      s.resultChan.length + (sends p).length ≤ sys.ips.length →
      nDone p ≤ s.wg → nRel p ≤ s.thread →
      ∃ t, run sys (List.replicate p.length (.worker i)) s = some t ∧
        t.workers = s.workers.set i ⟨ipPair, []⟩ ∧ t.pc = s.pc ∧ t.todo = s.todo ∧
        t.closed = false ∧ t.wg + nDone p = s.wg ∧ t.thread + nRel p = s.thread ∧
        t.resultChan.length = s.resultChan.length + (sends p).length ∧
        t.ticker = s.ticker
  | [], s, hget, _, hcl, _, _, _ =>
    ⟨s, rfl, (set_same _ _ _ hget).symm, rfl, rfl, hcl, rfl, rfl, rfl, rfl⟩
  | ins :: rest, s, hget, hcrash, hcl, hroom, hwg, hth => by
    have hrest : Instr.crash ∉ rest := fun h => hcrash (List.mem_cons_of_mem _ h)
    have hins : ins ≠ Instr.crash := fun h => hcrash (h ▸ List.mem_cons_self _ _)
    have hstep : ∃ u, step sys (.worker i) s = some u ∧
        u.workers = s.workers.set i ⟨ipPair, rest⟩ ∧ u.pc = s.pc ∧ u.todo = s.todo ∧
        u.closed = false ∧ u.wg + nDone [ins] = s.wg + 0 ∧ u.thread + nRel [ins] = s.thread ∧
        u.resultChan.length = s.resultChan.length + (sends [ins]).length ∧
        u.wg + nDone (ins :: rest) = s.wg + nDone rest ∧
        u.thread + nRel (ins :: rest) = s.thread + nRel rest ∧
        (sends (ins :: rest)).length = (sends [ins]).length + (sends rest).length ∧
        u.ticker = s.ticker := by
      simp only [step, stepWorker, hget]
      cases ins with
      | emit e =>
        exact ⟨_, rfl, rfl, rfl, rfl, hcl, by simp [nDone], by simp [nRel], by simp [sends],
          by simp [nDone], by simp [nRel], by simp [sends], rfl⟩
      | send r =>
        have hlt : s.resultChan.length < sys.ips.length := by
          simp only [sends, List.length_cons] at hroom
          omega
        simp only [execInstr, hcl, hlt, if_true, Bool.false_eq_true, if_false,
          Option.map_some']
        exact ⟨_, rfl, rfl, rfl, rfl, rfl, by simp [nDone], by simp [nRel], by simp [sends],
          by simp [nDone], by simp [nRel], (by simp [sends]; omega), rfl⟩
      | okAdd =>
        exact ⟨_, rfl, rfl, rfl, rfl, hcl, by simp [nDone], by simp [nRel], by simp [sends],
          by simp [nDone], by simp [nRel], by simp [sends], rfl⟩
      | wgDone =>
        have hne : s.wg ≠ 0 := by
          simp only [nDone, List.count_cons_self] at hwg
          omega
        simp only [execInstr, hne, if_false, Option.map_some']
        exact ⟨_, rfl, rfl, rfl, rfl, hcl, by simp [nDone]; omega, by simp [nRel],
          by simp [sends], by simp [nDone]; omega, by simp [nRel], by simp [sends], rfl⟩
      | countAdd =>
        exact ⟨_, rfl, rfl, rfl, rfl, hcl, by simp [nDone], by simp [nRel], by simp [sends],
          by simp [nDone], by simp [nRel], by simp [sends], rfl⟩
      | release =>
        have hne : s.thread ≠ 0 := by
          simp only [nRel, List.count_cons_self] at hth
          omega
        simp only [execInstr, hne, if_false, Option.map_some']
        exact ⟨_, rfl, rfl, rfl, rfl, hcl, by simp [nDone], by simp [nRel]; omega,
          by simp [sends], by simp [nDone], by simp [nRel]; omega, by simp [sends], rfl⟩
      | crash => exact absurd rfl hins
    obtain ⟨u, hu, hw, hpc, htodo, hucl, _, _, hchan, hwg2, hth2, hsend, htick⟩ := hstep
    have hget2 : u.workers.get? i = some ⟨ipPair, rest⟩ := by
      rw [hw]
      exact get?_set_same _ _ _ _ hget
    obtain ⟨t, ht, tw, tpc, ttodo, tcl, twg, tth, tchan, ttick⟩ :=
      worker_runs sys i ipPair rest u hget2 hrest hucl (by omega) (by omega) (by omega)
    refine ⟨t, ?_, ?_, ?_, ?_, tcl, ?_, ?_, ?_, ttick.trans htick⟩
    · simp only [List.length_cons, List.replicate_succ, run, hu, Option.some_bind]
      exact ht
    · rw [tw, hw, List.set_set]
    · rw [tpc, hpc]
    · rw [ttodo, htodo]
    · omega
    · omega
    · omega

theorem run_cons (sys : Sys) (a : Action) (u v : State) (h : step sys a u = some v)
    (hv : ∃ sched t, run sys sched v = some t ∧ t.pc = .returned) :
    ∃ sched t, run sys sched u = some t ∧ t.pc = .returned := by
  obtain ⟨sched, t, ht, hr⟩ := hv
  exact ⟨a :: sched, t, by simp only [run, h, Option.some_bind, ht], hr⟩

theorem announce_returns (sys : Sys) (u : State) (hpc : u.pc = .announce) :
    ∃ sched t, run sys sched u = some t ∧ t.pc = .returned :=
  run_cons sys .dispatch u
    { u with output := u.output ++ [.enough u.okCount], pc := .returned }
    (by simp only [step, stepDispatch, hpc]) ⟨[], _, rfl, rfl⟩

theorem summary_returns (sys : Sys) (u : State) (hpc : u.pc = .summary) :
    ∃ sched t, run sys sched u = some t ∧ t.pc = .returned := by
  by_cases hen : enoughResults sys.st u.okCount = true
  · exact run_cons sys .dispatch u { u with pc := .announce }
      (by simp only [step, stepDispatch, hpc, hen, if_true]) (announce_returns sys _ rfl)
  · exact run_cons sys .dispatch u { u with pc := .returned }
      (by simp only [step, stepDispatch, hpc, hen, Bool.false_eq_true, if_false])
      ⟨[], _, rfl, rfl⟩

theorem final_returns (sys : Sys) (l : ShowPc) (u : State) (hpc : u.pc = .final l) :
    ∃ sched t, run sys sched u = some t ∧ t.pc = .returned := by
  have h3 : ∀ (v : State) (a b c : Nat), v.pc = .final (.afterOk a b c) →
      ∃ sched t, run sys sched v = some t ∧ t.pc = .returned := fun v a b c hv =>
    run_cons sys .dispatch v
      { v with
        output := v.output ++ [.progress (showPercentText a b c v.count sys.ips.length)]
        pc := .summary }
      (by simp only [step, stepDispatch, hv, showStep]) (summary_returns sys _ rfl)
  have h2 : ∀ (v : State) (a b : Nat), v.pc = .final (.afterCount a b) →
      ∃ sched t, run sys sched v = some t ∧ t.pc = .returned := fun v a b hv =>
    run_cons sys .dispatch v { v with pc := .final (.afterOk a b v.okCount) }
      (by simp only [step, stepDispatch, hv, showStep]) (h3 _ a b v.okCount rfl)
  have h1 : ∀ (v : State) (a : Nat), v.pc = .final (.afterPct a) →
      ∃ sched t, run sys sched v = some t ∧ t.pc = .returned := fun v a hv =>
    run_cons sys .dispatch v { v with pc := .final (.afterCount a v.count) }
      (by simp only [step, stepDispatch, hv, showStep]) (h2 _ a v.count rfl)
  cases l with
  | start =>
    exact run_cons sys .dispatch u { u with pc := .final (.afterPct u.count) }
      (by simp only [step, stepDispatch, hpc, showStep]) (h1 _ u.count rfl)
  | afterPct a => exact h1 u a hpc
  | afterCount a b => exact h2 u a b hpc
  | afterOk a b c => exact h3 u a b c hpc

theorem run_to_returned (sys : Sys) (s : State) (hpc : s.pc = .loop) (hwg : s.wg = 0)
    (htick : s.ticker = some .start)
    (hbreak : s.todo = [] ∨ enoughResults sys.st s.okCount = true) :
    ∃ sched t, run sys sched s = some t ∧ t.pc = .returned := by
  have h1 : step sys .dispatch s = some { s with pc := .wait } := by
    simp only [step, stepDispatch, hpc]
    rcases hbreak with h | h
    · simp [h]
    · cases s.todo with
      | nil => rfl
      | cons ip rest => simp [h]
  have h2 : step sys .dispatch { s with pc := .wait } = some { s with pc := .stop } := by
    simp only [step, stepDispatch, hwg, if_true]
  have h3 : step sys .dispatch { s with pc := .stop } =
      some { s with ticker := none, closed := true, pc := .final .start } := by
    simp only [step, stepDispatch, htick, if_true]
  exact run_cons sys _ _ _ h1 (run_cons sys _ _ _ h2 (run_cons sys _ _ _ h3
    (final_returns sys .start _ rfl)))

/-- From a state at the top of the loop in which every started worker has finished, the
schedule that runs each new worker to its end before the next loop iteration leads
`TestDelay` to its return. -/
theorem quiet_completes (sys : Sys) (hM : 0 < sys.st.MaxThread)
    (hcrash : ∀ k ip, Instr.crash ∉ workerProgram sys.st ip (sys.world k ip)) :
    ∀ (todo : List IpPair) (s : State), s.todo = todo → Quiet sys s →
      ∃ sched t, run sys sched s = some t ∧ t.pc = .returned
  | [], s, htodo, hq => run_to_returned sys s hq.pc hq.wg hq.ticker (Or.inl htodo)
  | ip :: rest, s, htodo, hq => by
    by_cases hen : enoughResults sys.st s.okCount = true
    · exact run_to_returned sys s hq.pc hq.wg hq.ticker (Or.inr hen)
    · obtain ⟨qpc, qwg, qth, qcl, qtick, qprogs, qchan, qlen⟩ := hq
      let u : State :=
        { s with
          wg := s.wg + 1
          todo := rest
          thread := s.thread + 1
          workers := s.workers ++ [⟨ip, workerProgram sys.st ip (sys.world s.workers.length ip)⟩]
          pc := .loop }
      have hu : run sys [.dispatch, .dispatch] s = some u := by
        have hth : s.thread < sys.st.MaxThread := by omega
        simp only [run, step, stepDispatch, qpc, htodo, hen, Bool.false_eq_true, if_false,
          Option.some_bind, hth, if_true]
      obtain ⟨f1, f2, f3, f4, f5, f6⟩ :=
        workerProgram_facts sys.st ip (sys.world s.workers.length ip)
      have hlen : s.workers.length < sys.ips.length := by
        rw [htodo] at qlen
        simp only [List.length_cons] at qlen
        omega
      obtain ⟨t, ht, tw, tpc, ttodo, tcl, twg, tth, tchan, ttick⟩ :=
        worker_runs sys s.workers.length ip (workerProgram sys.st ip (sys.world s.workers.length ip)) u
          (by rw [List.get?_eq_getElem?]; exact List.getElem?_concat_length _ _)
          (hcrash _ _) qcl
          (by show s.resultChan.length + (sends (workerProgram sys.st ip (sys.world s.workers.length ip))).length ≤ _; omega)
          (by show nDone (workerProgram sys.st ip (sys.world s.workers.length ip)) ≤ s.wg + 1; omega)
          (by show nRel (workerProgram sys.st ip (sys.world s.workers.length ip)) ≤ s.thread + 1; omega)
      have hws : t.workers = s.workers ++ [⟨ip, []⟩] := by
        rw [tw]
        show (s.workers ++ [_]).set s.workers.length _ = _
        rw [List.set_append_right _ _ (Nat.le_refl _)]
        simp
      have hq2 : Quiet sys t := by
        refine ⟨tpc, ?_, ?_, tcl, ttick.trans qtick, ?_, ?_, ?_⟩
        · have : t.wg + nDone (workerProgram sys.st ip (sys.world s.workers.length ip)) = s.wg + 1 := twg
          omega
        · have : t.thread + nRel (workerProgram sys.st ip (sys.world s.workers.length ip)) = s.thread + 1 := tth
          omega
        · intro w hw
          rw [hws] at hw
          rcases List.mem_append.mp hw with hm | hm
          · exact qprogs w hm
          · rw [List.mem_singleton.mp hm]
        · rw [hws, tchan]
          simp only [List.length_append, List.length_singleton]
          show s.resultChan.length + (sends (workerProgram sys.st ip (sys.world s.workers.length ip))).length ≤ _
          omega
        · rw [hws, ttodo]
          simp only [List.length_append, List.length_singleton]
          rw [htodo] at qlen
          simp only [List.length_cons] at qlen
          show s.workers.length + 1 + rest.length = _
          omega
      obtain ⟨sched, v, hv, hr⟩ := quiet_completes sys hM hcrash rest t ttodo hq2
      refine ⟨[.dispatch, .dispatch] ++
        (List.replicate (workerProgram sys.st ip (sys.world s.workers.length ip)).length (.worker s.workers.length) ++ sched), v, ?_, hr⟩
      rw [run_append, hu, Option.some_bind, run_append, ht, Option.some_bind]
      exact hv

theorem crash_not_mem_afterProbe (st : CFSpeedTest) (ipPair : IpPair) (res : Option Result)
    (err : GoError) : Instr.crash ∉ afterProbe st ipPair res err := by
  unfold afterProbe
  cases res <;> cases err <;>
    by_cases hv : st.VerboseMode = true <;>
    simp only [hv] <;>
    (try split) <;> simp

theorem TestDelayOnce_returns (st : CFSpeedTest) (ipPair : IpPair) (w : World)
    (h : w.newRequest (wsRequestURL st) = true) : (TestDelayOnce st ipPair w).1 ≠ none := by
  have hws : (TestWebSocketDelay st ipPair w).1 ≠ none := by
    rcases TestWebSocketDelay_cases st ipPair w with ⟨b, msg, hb, _⟩ | ⟨_, _, hn⟩
    · rw [hb]
      simp
    · rw [h] at hn
      exact Bool.noConfusion hn
  unfold TestDelayOnce
  split
  · simp
  · simp only
    split
    · split
      · split
        · rcases hw : TestWebSocketDelay st ipPair w with ⟨r, ev⟩
          rw [hw] at hws
          cases r with
          | none => exact absurd rfl hws
          | some p =>
            obtain ⟨ok, err⟩ := p
            cases ok <;> simp
        · simp
      · simp
    · simp

/-- A worker program ends with a crash only when `http.NewRequest` rejects the URL of the
upgrade request. -/
theorem crash_not_mem_workerProgram (st : CFSpeedTest) (ipPair : IpPair) (w : World)
    (h : w.newRequest (wsRequestURL st) = true) : Instr.crash ∉ workerProgram st ipPair w := by
  have hd : Instr.crash ∉ deferredBlock := by simp [deferredBlock]
  have he : ∀ ev : List Event, Instr.crash ∉ ev.map Instr.emit := by
    intro ev hm
    obtain ⟨e, _, he⟩ := List.mem_map.mp hm
    exact Instr.noConfusion he
  unfold workerProgram
  split
  · simp only [List.mem_append, not_or]
    exact ⟨⟨he _, crash_not_mem_afterProbe _ _ _ _⟩, hd⟩
  · split
    · split
      · simp only [List.mem_append, not_or]
        exact ⟨⟨he _, crash_not_mem_afterProbe _ _ _ _⟩, hd⟩
      · rename_i ev heq
        exact absurd (congrArg Prod.fst heq) (TestDelayOnce_returns st ipPair w h)
    · exact hd

/-- For every list of endpoints and every configuration with `MaxThread >= 1`, if no
probe panics, some schedule leads `TestDelay` to its return. -/
theorem TestDelay_can_return (sys : Sys) (hM : 0 < sys.st.MaxThread)
    (hcrash : ∀ k ip, Instr.crash ∉ workerProgram sys.st ip (sys.world k ip)) :
    ∃ s, Reachable sys s ∧ s.pc = .returned := by
  obtain ⟨sched, t, ht, hr⟩ := quiet_completes sys hM hcrash sys.ips (init sys) rfl
    ⟨rfl, rfl, rfl, rfl, rfl, (by intro w hw; cases hw), Nat.le_refl _, (by simp [init])⟩
  exact ⟨t, ⟨sched, ht⟩, hr⟩

/-! ## Theorems: completed runs -/

/-- Once `wg.Wait()` has returned, no started worker has an `okCount.Add(1)` or a send
still to come. -/
theorem quiet_after_wait (sys : Sys) (s : State) (hinv : Inv sys s) (hw : afterWait s.pc) :
    tot nOk s.workers = 0 ∧ pendingSends s.workers = 0 := by
  have hwg := hinv.waited hw
  have hd : tot nDone s.workers = 0 := by
    have := hinv.wg_eq
    omega
  have hz := tot_eq_zero nDone s.workers hd
  constructor
  · have hle := tot_le_tot nOk nDone s.workers
      (fun w hm => (wfProg_good (hinv.wf w hm)).2.1)
    omega
  · apply pendingSends_eq_zero
    intro w hm
    have hg := (wfProg_good (hinv.wf w hm)).2.2.1
    rw [hz w hm] at hg
    exact List.length_eq_zero.mp (Nat.le_zero.mp hg)

/-- The content of the result channel when `TestDelay` has returned: a permutation of the
results accepted from the endpoints for which a worker was started. -/
theorem returned_chan (sys : Sys) (s : State) (hinv : Inv sys s) (hw : afterWait s.pc) :
    s.resultChan.Perm (acceptedFrom sys 0 (s.workers.map fun w => w.ipPair)) ∧
      s.okCount = (acceptedFrom sys 0 (s.workers.map fun w => w.ipPair)).length := by
  obtain ⟨h1, h2⟩ := quiet_after_wait sys s hinv hw
  constructor
  · have := hinv.chan_eq
    rw [h2, add_zero] at this
    exact Multiset.coe_eq_coe.mp this
  · have := hinv.ok_eq
    omega

theorem started_le (sys : Sys) (s : State) (hinv : Inv sys s) :
    s.workers.length ≤ sys.ips.length := by
  have := congrArg List.length hinv.ips_eq
  simp only [List.length_append, List.length_map] at this
  omega

theorem accepted_started_le (sys : Sys) (s : State) (hinv : Inv sys s) :
    (acceptedFrom sys 0 (s.workers.map fun w => w.ipPair)).length ≤ (accepted sys).length := by
  unfold accepted
  rw [← hinv.ips_eq, List.append_assoc, acceptedFrom_append, List.length_append]
  omega

theorem accepted_all_started (sys : Sys) (s : State) (hinv : Inv sys s)
    (hl : afterLoop s.pc) (ht : s.todo = []) :
    acceptedFrom sys 0 (s.workers.map fun w => w.ipPair) = accepted sys := by
  unfold accepted
  have hacq : acq s.pc = [] := by
    cases hp : s.pc <;> simp [hp, afterLoop, acq] at hl ⊢
  rw [← hinv.ips_eq, ht, hacq]
  simp

theorem afterLoop_of_afterWait {pc : Pc} (h : afterWait pc) : afterLoop pc := by
  cases pc <;> simp [afterWait, afterLoop] at h ⊢

/-! ### The claims about `TestDelay` -/

/-- C2 (as amended): in every reachable state of `TestDelay`, `count` is at most
`len(ips)`, and `okCount` is at most `count` plus the number of `count.Add(1)` that started
workers have not executed yet, a sum which is itself at most `len(ips)`. -/
theorem counters_bounded (sys : Sys) (s : State) (h : Reachable sys s) :
    s.count ≤ sys.ips.length ∧ s.okCount ≤ s.count + pendingCount s ∧
      s.count + pendingCount s ≤ sys.ips.length := by
  have hinv := Inv_reachable sys s h
  have h1 := started_le sys s hinv
  have h2 := hinv.count_eq
  have h3 := hinv.ok_eq
  have h4 := acceptedFrom_length_le sys 0 (s.workers.map fun w => w.ipPair)
  simp only [List.length_map] at h4
  unfold pendingCount
  omega

/-- C3 (as amended): with `MaxDelayCount = K > 0`, when `TestDelay` has returned the
result channel holds `okCount` results; `okCount` is at most `K + MaxThread` and at most
the number of endpoints that pass probe and filter; it is that number when fewer than `K`
endpoints pass and at least `K` otherwise.  At the top of the loop, a state with
`okCount >= K` leaves the loop without `wg.Add(1)` and without taking a slot. -/
theorem early_stop_bounds (sys : Sys) (s : State) (hK : 0 < sys.st.MaxDelayCount)
    (h : Reachable sys s) (hret : s.pc = .returned) :
    s.resultChan.length = s.okCount ∧
      (s.okCount : Int) ≤ sys.st.MaxDelayCount + sys.st.MaxThread ∧
      s.okCount ≤ (accepted sys).length ∧
      (((accepted sys).length : Int) < sys.st.MaxDelayCount →
        s.okCount = (accepted sys).length) ∧
      (sys.st.MaxDelayCount ≤ ((accepted sys).length : Int) →
        sys.st.MaxDelayCount ≤ (s.okCount : Int)) ∧
      (∀ u : State, u.pc = .loop → enoughResults sys.st u.okCount = true →
        ∃ v, stepDispatch sys u = some v ∧ v.pc = .wait ∧ v.wg = u.wg ∧
          v.thread = u.thread ∧ v.workers = u.workers) := by
  have hinv := Inv_reachable sys s h
  have hw : afterWait s.pc := by simp [hret, afterWait]
  obtain ⟨hperm, hok⟩ := returned_chan sys s hinv hw
  obtain ⟨hq, _⟩ := quiet_after_wait sys s hinv hw
  have hle := accepted_started_le sys s hinv
  have hb := hinv.bound hK
  have hacq : (acq s.pc).length = 0 := by simp [hret, acq]
  have hex := hinv.exit (afterLoop_of_afterWait hw)
  have hcase : s.okCount = (accepted sys).length ∨
      sys.st.MaxDelayCount ≤ (s.okCount : Int) := by
    rcases hex with ht | hen
    · left
      rw [hok, accepted_all_started sys s hinv (afterLoop_of_afterWait hw) ht]
    · right
      simp only [enoughResults, Bool.and_eq_true, decide_eq_true_eq] at hen
      exact hen.2
  refine ⟨?_, ?_, ?_, ?_, ?_, ?_⟩
  · rw [hperm.length_eq, hok]
  · rw [hq, hacq] at hb
    simpa using hb
  · omega
  · intro hlt
    rcases hcase with hc | hc
    · exact hc
    · omega
  · intro hge
    rcases hcase with hc | hc
    · omega
    · exact hc
  · intro u hpc hen
    unfold stepDispatch
    rw [hpc]
    cases htodo : u.todo with
    | nil => exact ⟨_, rfl, rfl, rfl, rfl, rfl⟩
    | cons ip rest =>
      simp only [hen, if_true]
      exact ⟨_, rfl, rfl, rfl, rfl, rfl⟩

theorem workerProgram_withMaxThread (st : CFSpeedTest) (m : Nat) (ipPair : IpPair)
    (w : World) :
    workerProgram { st with MaxThread := m } ipPair w = workerProgram st ipPair w := rfl

/-- The results that pass probe and filter do not depend on `MaxThread`. -/
theorem acceptedFrom_withMaxThread (sys : Sys) (m : Nat) (k : Nat) (xs : List IpPair) :
    acceptedFrom (withMaxThread sys m) k xs = acceptedFrom sys k xs := by
  induction xs generalizing k with
  | nil => rfl
  | cons x rest ih =>
    show sends (workerProgram { sys.st with MaxThread := m } x (sys.world k x)) ++
        acceptedFrom (withMaxThread sys m) (k + 1) rest = _
    rw [workerProgram_withMaxThread, ih]
    rfl

theorem accepted_withMaxThread (sys : Sys) (m : Nat) :
    accepted (withMaxThread sys m) = accepted sys :=
  acceptedFrom_withMaxThread sys m 0 sys.ips

/-- When there is no early stop, or at most `MaxDelayCount` endpoints pass probe and
filter, the channel of a run that has returned holds the results of all endpoints that
pass, in some order. -/
theorem returned_all_accepted (sys : Sys) (s : State)
    (hK : sys.st.MaxDelayCount ≤ 0 ∨ ((accepted sys).length : Int) ≤ sys.st.MaxDelayCount)
    (h : Reachable sys s) (hret : s.pc = .returned) :
    s.resultChan.Perm (accepted sys) := by
  have hinv := Inv_reachable sys s h
  have hw : afterWait s.pc := by rw [hret]; trivial
  obtain ⟨hperm, hok⟩ := returned_chan sys s hinv hw
  have hex := hinv.exit (afterLoop_of_afterWait hw)
  have heq : acceptedFrom sys 0 (s.workers.map fun w => w.ipPair) = accepted sys := by
    rcases hex with ht | hen
    · exact accepted_all_started sys s hinv (afterLoop_of_afterWait hw) ht
    · simp only [enoughResults, Bool.and_eq_true, decide_eq_true_eq] at hen
      rcases hK with hK | hK
      · omega
      · have hsplit : accepted sys =
            acceptedFrom sys 0 (s.workers.map fun w => w.ipPair) ++
              acceptedFrom sys (0 + (s.workers.map fun w => w.ipPair).length)
                (acq s.pc ++ s.todo) := by
          unfold accepted
          rw [← hinv.ips_eq, List.append_assoc, acceptedFrom_append]
        have hlen := congrArg List.length hsplit
        rw [List.length_append] at hlen
        have hz : (acceptedFrom sys (0 + (s.workers.map fun w => w.ipPair).length)
            (acq s.pc ++ s.todo)).length = 0 := by omega
        rw [hsplit, List.length_eq_zero.mp hz, List.append_nil]
  rw [heq] at hperm
  exact hperm

/-- C8 (as amended): fix the endpoints, the network and the configuration apart from
`MaxThread`, and suppose that there is no early stop (`MaxDelayCount <= 0`) or that at
most `MaxDelayCount` endpoints pass probe and filter.  Then a run of `TestDelay` that has
returned with one value of `MaxThread` and a run that has returned with another value
`m` (under any schedules) hold the same results on their channels up to order, namely
the results of all endpoints that pass probe and filter. -/
theorem same_results_any_MaxThread (sys : Sys) (m : Nat) (s1 s2 : State)
    (hK : sys.st.MaxDelayCount ≤ 0 ∨ ((accepted sys).length : Int) ≤ sys.st.MaxDelayCount)
    (h1 : Reachable sys s1) (h2 : Reachable (withMaxThread sys m) s2)
    (hr1 : s1.pc = .returned) (hr2 : s2.pc = .returned) :
    s1.resultChan.Perm s2.resultChan ∧ s1.resultChan.Perm (accepted sys) ∧
      s2.resultChan.Perm (accepted sys) := by
  have k1 := returned_all_accepted sys s1 hK h1 hr1
  have k2 := returned_all_accepted (withMaxThread sys m) s2
    (by rw [accepted_withMaxThread]; exact hK) h2 hr2
  rw [accepted_withMaxThread] at k2
  exact ⟨k1.trans k2.symm, k1, k2⟩

/-! ### Progress lines -/

theorem count_le_total (sys : Sys) (s : State) (hinv : Inv sys s) :
    s.count ≤ sys.ips.length := by
  have h1 := started_le sys s hinv
  have h2 := hinv.count_eq
  omega

/-- One read of `showPercentText` keeps what has been read below `count`, and the line it
completes is a good one. -/
theorem showStep_ok (count ok total : Nat) (l : ShowPc) (hl : shownLe count l)
    (hc : count ≤ total) :
    (∀ l2, showStep count ok total l = .inl l2 → shownLe count l2) ∧
      (∀ line, showStep count ok total l = .inr line → lineOk total line) := by
  cases l with
  | start =>
    refine ⟨fun l2 h => ?_, fun line h => by simp [showStep] at h⟩
    simp only [showStep, Sum.inl.injEq] at h
    subst h
    trivial
  | afterPct a =>
    refine ⟨fun l2 h => ?_, fun line h => by simp [showStep] at h⟩
    simp only [showStep, Sum.inl.injEq] at h
    subst h
    exact Nat.le_refl _
  | afterCount a b =>
    refine ⟨fun l2 h => ?_, fun line h => by simp [showStep] at h⟩
    simp only [showStep, Sum.inl.injEq] at h
    subst h
    exact hl
  | afterOk a b c =>
    refine ⟨fun l2 h => by simp [showStep] at h, fun line h => ?_⟩
    simp only [showStep, Sum.inr.injEq] at h
    subst h
    have hb : b ≤ count := hl
    unfold lineOk showPercentText
    refine ⟨rfl, Nat.le_trans hb hc, ?_, ?_⟩
    · by_cases h : count = total <;> simp [h]
    · intro hbt
      have : count = total := by
        simp only at hbt
        omega
      simp [this]

theorem shownLe_mono {c d : Nat} (h : c ≤ d) (l : ShowPc) (hl : shownLe c l) : shownLe d l := by
  cases l with
  | start => trivial
  | afterPct a => trivial
  | afterCount a b => exact Nat.le_trans hl h
  | afterOk a b e => exact Nat.le_trans hl h

theorem OutInv_init (sys : Sys) : OutInv sys (init sys) := by
  refine ⟨fun line h => by simp [init] at h, fun l h => by simp [init] at h, fun l h => ?_⟩
  simp only [init, Option.some.injEq] at h
  subst h
  trivial

/-- A worker step leaves the caller and the ticker where they are, does not lower `count`,
and prints no progress line. -/
theorem stepWorker_frame (sys : Sys) (i : Nat) (s t : State)
    (h : stepWorker sys i s = some t) :
    t.pc = s.pc ∧ t.ticker = s.ticker ∧ s.count ≤ t.count ∧
      ∀ line, Output.progress line ∈ t.output → Output.progress line ∈ s.output := by
  unfold stepWorker at h
  split at h
  case h_2 => exact Option.noConfusion h
  case h_1 ipPair ins rest hget =>
    cases ins with
    | emit e =>
      simp only [execInstr, Option.map_some', Option.some.injEq] at h
      subst h
      refine ⟨rfl, rfl, Nat.le_refl _, fun line hl => ?_⟩
      simpa using hl
    | send r =>
      simp only [execInstr] at h
      split at h
      · exact Option.noConfusion h
      split at h
      swap
      · exact Option.noConfusion h
      simp only [Option.map_some', Option.some.injEq] at h
      subst h
      exact ⟨rfl, rfl, Nat.le_refl _, fun line hl => hl⟩
    | okAdd =>
      simp only [execInstr, Option.map_some', Option.some.injEq] at h
      subst h
      exact ⟨rfl, rfl, Nat.le_refl _, fun line hl => hl⟩
    | wgDone =>
      simp only [execInstr] at h
      split at h
      · exact Option.noConfusion h
      simp only [Option.map_some', Option.some.injEq] at h
      subst h
      exact ⟨rfl, rfl, Nat.le_refl _, fun line hl => hl⟩
    | countAdd =>
      simp only [execInstr, Option.map_some', Option.some.injEq] at h
      subst h
      exact ⟨rfl, rfl, Nat.le_succ _, fun line hl => hl⟩
    | release =>
      simp only [execInstr] at h
      split at h
      · exact Option.noConfusion h
      simp only [Option.map_some', Option.some.injEq] at h
      subst h
      exact ⟨rfl, rfl, Nat.le_refl _, fun line hl => hl⟩
    | crash =>
      simp only [execInstr, Option.map_none'] at h
      exact Option.noConfusion h

theorem OutInv_step (sys : Sys) (a : Action) (s t : State) (hinv : Inv sys s)
    (ho : OutInv sys s) (h : step sys a s = some t) : OutInv sys t := by
  have hc := count_le_total sys s hinv
  obtain ⟨o1, o2, o3⟩ := ho
  cases a with
  | worker i =>
    obtain ⟨f1, f2, f3, f4⟩ := stepWorker_frame sys i s t h
    refine ⟨fun line hl => o1 line (f4 line hl), fun l hl => ?_, fun l hl => ?_⟩
    · exact shownLe_mono f3 l (o2 l (by rw [← f1]; exact hl))
    · exact shownLe_mono f3 l (o3 l (by rw [← f2]; exact hl))
  | tick =>
    simp only [step, stepTick] at h
    split at h
    · exact Option.noConfusion h
    · rename_i l hl
      obtain ⟨g1, g2⟩ := showStep_ok s.count s.okCount sys.ips.length l (o3 l hl) hc
      split at h
      · rename_i l2 hs
        simp only [Option.some.injEq] at h
        subst h
        refine ⟨o1, o2, fun l3 h3 => ?_⟩
        simp only [Option.some.injEq] at h3
        subst h3
        exact g1 l2 hs
      · rename_i line hs
        simp only [Option.some.injEq] at h
        subst h
        refine ⟨fun ln hln => ?_, o2, fun l3 h3 => ?_⟩
        · simp only [List.mem_append, List.mem_singleton, Output.progress.injEq] at hln
          rcases hln with hln | hln
          · exact o1 ln hln
          · rw [hln]
            exact g2 line hs
        · simp only [Option.some.injEq] at h3
          subst h3
          trivial
  | dispatch =>
    simp only [step, stepDispatch] at h
    split at h
    case h_1 hpc =>
      split at h
      · simp only [Option.some.injEq] at h
        subst h
        exact ⟨o1, fun l hl => Pc.noConfusion hl, o3⟩
      · split at h <;>
          · simp only [Option.some.injEq] at h
            subst h
            exact ⟨o1, fun l hl => Pc.noConfusion hl, o3⟩
    case h_2 ip hpc =>
      split at h
      · simp only [Option.some.injEq] at h
        subst h
        exact ⟨o1, fun l hl => Pc.noConfusion hl, o3⟩
      · exact Option.noConfusion h
    case h_3 hpc =>
      split at h
      · simp only [Option.some.injEq] at h
        subst h
        exact ⟨o1, fun l hl => Pc.noConfusion hl, o3⟩
      · exact Option.noConfusion h
    case h_4 hpc =>
      split at h
      · simp only [Option.some.injEq] at h
        subst h
        refine ⟨o1, fun l hl => ?_, fun l hl => Option.noConfusion hl⟩
        simp only [Pc.final.injEq] at hl
        subst hl
        trivial
      · exact Option.noConfusion h
    case h_5 l hpc =>
      obtain ⟨g1, g2⟩ := showStep_ok s.count s.okCount sys.ips.length l (o2 l hpc) hc
      split at h
      · rename_i l2 hs
        simp only [Option.some.injEq] at h
        subst h
        refine ⟨o1, fun l3 h3 => ?_, o3⟩
        simp only [Pc.final.injEq] at h3
        subst h3
        exact g1 l2 hs
      · rename_i line hs
        simp only [Option.some.injEq] at h
        subst h
        refine ⟨fun ln hln => ?_, fun l3 h3 => Pc.noConfusion h3, o3⟩
        simp only [List.mem_append, List.mem_singleton, Output.progress.injEq] at hln
        rcases hln with hln | hln
        · exact o1 ln hln
        · rw [hln]
          exact g2 line hs
    case h_6 hpc =>
      split at h <;>
        · simp only [Option.some.injEq] at h
          subst h
          exact ⟨o1, fun l hl => Pc.noConfusion hl, o3⟩
    case h_7 hpc =>
      simp only [Option.some.injEq] at h
      subst h
      refine ⟨fun ln hln => ?_, fun l hl => Pc.noConfusion hl, o3⟩
      simp only [List.mem_append, List.mem_singleton, reduceCtorEq, or_false] at hln
      exact o1 ln hln
    case h_8 => exact Option.noConfusion h

theorem OutInv_run (sys : Sys) (sched : List Action) (s t : State) (hinv : Inv sys s)
    (ho : OutInv sys s) (h : run sys sched s = some t) : OutInv sys t := by
  induction sched generalizing s with
  | nil =>
    simp only [run, Option.some.injEq] at h
    subst h
    exact ho
  | cons a rest ih =>
    simp only [run] at h
    cases hs : step sys a s with
    | none => simp [hs] at h
    | some u =>
      rw [hs] at h
      exact ih u (Inv_step sys a s u hinv hs) (OutInv_step sys a s u hinv ho hs) h

/-- C9 (as amended): `showPercentText` ends its line with a newline exactly when the
value of `count` it reads for the comparison of line 36 equals `total`, and with a
carriage return otherwise; this read is the last of its four reads, taken when the line is
completed, both for the lines of the ticker and for the final line of `TestDelay`.  Hence
in every reachable state every progress line put out so far, whether by the ticker before
completion or by the final call, shows `total = len(ips)` and a count of at most `total`,
ends with a newline or a carriage return, and ends with a newline when the count it shows
equals `total`; a line ending with a carriage return shows a count below `total`. -/
theorem progress_line_terminator (sys : Sys) (s : State) (h : Reachable sys s) :
    (∀ cPct cShown ok cCmp total : Nat,
        (showPercentText cPct cShown ok cCmp total).terminator =
          if cCmp = total then '\n' else '\r') ∧
      (∀ line, Output.progress line ∈ s.output →
        line.total = sys.ips.length ∧ line.count ≤ sys.ips.length ∧
        (line.terminator = '\n' ∨ line.terminator = '\r') ∧
        (line.count = sys.ips.length → line.terminator = '\n') ∧
        (line.terminator = '\r' → line.count < sys.ips.length)) ∧
      (∀ cPct cShown ok, s.pc = .final (.afterOk cPct cShown ok) →
        stepDispatch sys s = some { s with
          output := s.output ++ [.progress ⟨cShown, sys.ips.length, ok,
            if s.count = sys.ips.length then '\n' else '\r'⟩]
          pc := .summary }) ∧
      (∀ cPct cShown ok, s.ticker = some (.afterOk cPct cShown ok) →
        stepTick sys s = some { s with
          output := s.output ++ [.progress ⟨cShown, sys.ips.length, ok,
            if s.count = sys.ips.length then '\n' else '\r'⟩]
          ticker := some .start }) := by
  obtain ⟨sched, hs⟩ := h
  have ho := OutInv_run sys sched (init sys) s (Inv_init sys) (OutInv_init sys) hs
  refine ⟨fun _ _ _ _ _ => rfl, fun line hl => ?_, fun a b c hpc => ?_, fun a b c ht => ?_⟩
  · obtain ⟨l1, l2, l3, l4⟩ := ho.lines line hl
    refine ⟨l1, l2, l3, l4, fun hr => ?_⟩
    rcases Nat.lt_or_ge line.count sys.ips.length with hlt | hge
    · exact hlt
    · have := l4 (Nat.le_antisymm l2 hge)
      rw [this] at hr
      exact absurd hr (by decide)
  · simp only [stepDispatch, hpc, showStep, showPercentText]
  · simp only [stepTick, ht, showStep, showPercentText]

/-! ### Concrete runs -/

/-- C2, counterexample: with one endpoint whose probe succeeds, the state in which the
worker has executed `okCount.Add(1)` and not yet its deferred `count.Add(1)` is reachable;
there `okCount = 1` and `count = 0`, so `okCount <= count` fails. -/
theorem okCount_exceeds_count :
    ∃ s, TestDelay (goodSys [ipA] 1 0) schedOkBeforeCount = some s ∧
      s.okCount = 1 ∧ s.count = 0 ∧
      ¬ (s.okCount ≤ s.count ∧ s.count ≤ (goodSys [ipA] 1 0).ips.length) :=
  ⟨_, rfl, rfl, rfl, by decide⟩

/-- C2, witness: the bounds in the state where the worker has executed `okCount.Add(1)`
and not yet `count.Add(1)`. -/
theorem counters_bounded_witness :
    Reachable (goodSys [ipA] 1 0) (stateAfter (goodSys [ipA] 1 0) schedOkBeforeCount) ∧
      (stateAfter (goodSys [ipA] 1 0) schedOkBeforeCount).okCount ≤
        (stateAfter (goodSys [ipA] 1 0) schedOkBeforeCount).count +
          pendingCount (stateAfter (goodSys [ipA] 1 0) schedOkBeforeCount) :=
  ⟨⟨schedOkBeforeCount, rfl⟩,
    (counters_bounded (goodSys [ipA] 1 0) _ ⟨schedOkBeforeCount, rfl⟩).2.1⟩

/-- C3, counterexample: `MaxDelayCount = 1`, `MaxThread = 1`, two endpoints whose probes
succeed.  The loop tests the second endpoint before the first worker has counted its
result, then waits for the slot and starts the second worker: `TestDelay` returns a channel
with two results, more than `MaxDelayCount`. -/
theorem early_stop_overshoot :
    ∃ s, TestDelay (goodSys [ipA, ipB] 1 1) schedLate = some s ∧
      s.pc = .returned ∧ s.okCount = 2 ∧ s.resultChan.length = 2 ∧
      ¬ ((s.resultChan.length : Int) ≤ (goodSys [ipA, ipB] 1 1).st.MaxDelayCount) :=
  ⟨_, rfl, rfl, rfl, rfl, by decide⟩

/-- C3, witness: the bounds for a run that overshoots `MaxDelayCount = 1` by one. -/
theorem early_stop_bounds_witness :
    (stateAfter (goodSys [ipA, ipB] 1 1) schedLate).resultChan.length =
        (stateAfter (goodSys [ipA, ipB] 1 1) schedLate).okCount ∧
      ((stateAfter (goodSys [ipA, ipB] 1 1) schedLate).okCount : Int) ≤
        (goodSys [ipA, ipB] 1 1).st.MaxDelayCount + (goodSys [ipA, ipB] 1 1).st.MaxThread :=
  have h := early_stop_bounds (goodSys [ipA, ipB] 1 1)
    (stateAfter (goodSys [ipA, ipB] 1 1) schedLate) (by decide) ⟨schedLate, rfl⟩ rfl
  ⟨h.1, h.2.1⟩

/-- C7: one endpoint, no early stop.  The worker executes `wg.Done()`, `wg.Wait()` returns
and the calling goroutine prints its final progress line before the worker executes
`count.Add(1)`: the line shows `count = 0` of `total = 1` and ends with a carriage
return. -/
theorem final_snapshot_misses_count :
    ∃ s, TestDelay (goodSys [ipA] 1 0) schedDoneBeforeCount = some s ∧
      s.pc = .returned ∧
      s.output.getLast? = some (.progress ⟨0, 1, 1, '\r'⟩) ∧
      s.count ≠ (goodSys [ipA] 1 0).ips.length :=
  ⟨_, rfl, rfl, rfl, by decide⟩

/-- The reads of `showPercentText` are not one snapshot: when the worker executes
`count.Add(1)` between the second and the third `count.Load()` of the final call, the line
shows `count = 0` of 1 and yet ends with a newline. -/
theorem final_line_between_loads :
    ∃ s, TestDelay (goodSys [ipA] 1 0) schedCountBetweenLoads = some s ∧
      s.pc = .returned ∧ s.output.getLast? = some (.progress ⟨0, 1, 1, '\n'⟩) :=
  ⟨_, rfl, rfl, rfl⟩

/-- C8, counterexample: `MaxDelayCount = 1`, `MaxThread = 1`, two endpoints whose probes
succeed.  Two schedules of the same call return different sets of results: the second
endpoint is in one channel and not in the other. -/
theorem early_stop_depends_on_schedule :
    ∃ s1 s2,
      TestDelay (goodSys [ipA, ipB] 1 1) schedEager = some s1 ∧
      TestDelay (goodSys [ipA, ipB] 1 1) schedLate = some s2 ∧
      s1.pc = .returned ∧ s2.pc = .returned ∧
      resultOf ipB ∉ s1.resultChan ∧ resultOf ipB ∈ s2.resultChan :=
  ⟨_, _, rfl, rfl, rfl, rfl, by decide, by decide⟩

/-- C8, witness: without early stop, a run with two slots in which the second worker
sends first and a run with one slot return the same results. -/
theorem same_results_witness :
    (stateAfter (goodSys [ipA, ipB] 2 0) schedSwapped).resultChan =
        [resultOf ipB, resultOf ipA] ∧
      (stateAfter (withMaxThread (goodSys [ipA, ipB] 2 0) 1) schedInOrder).resultChan =
        [resultOf ipA, resultOf ipB] ∧
      (stateAfter (goodSys [ipA, ipB] 2 0) schedSwapped).resultChan.Perm
        (stateAfter (withMaxThread (goodSys [ipA, ipB] 2 0) 1) schedInOrder).resultChan :=
  ⟨rfl, rfl,
    (same_results_any_MaxThread (goodSys [ipA, ipB] 2 0) 1
      (stateAfter (goodSys [ipA, ipB] 2 0) schedSwapped)
      (stateAfter (withMaxThread (goodSys [ipA, ipB] 2 0) 1) schedInOrder)
      (Or.inl (by decide)) ⟨schedSwapped, rfl⟩ ⟨schedInOrder, rfl⟩ rfl rfl).1⟩

/-- C9, counterexample.  First part: `MaxDelayCount = 1`, two endpoints; the first worker
finishes, the loop stops early and `TestDelay` returns with `count = 1 < 2`: the final
progress line ends with a carriage return, not with a newline.  Second part: one endpoint,
no early stop; the worker has finished and the ticker prints a line while the calling
goroutine is still at the top of the loop: this line, printed before completion, ends with
a newline, not with a carriage return. -/
theorem progress_terminators_fail :
    (∃ s, TestDelay (goodSys [ipA, ipB] 1 1) schedEager = some s ∧
      s.pc = .returned ∧ s.count = 1 ∧
      s.output.drop 2 = [.progress ⟨1, 2, 1, '\r'⟩, .enough 1]) ∧
    (∃ s, TestDelay (goodSys [ipA] 1 0) schedTickAfterCount = some s ∧
      s.pc = .loop ∧ s.output.getLast? = some (.progress ⟨1, 1, 1, '\n'⟩)) :=
  ⟨⟨_, rfl, rfl, rfl, rfl⟩, ⟨_, rfl, rfl, rfl⟩⟩

/-- C9, witness: the progress lines of an early-stopped run with `count = 1` of 2. -/
theorem progress_line_terminator_witness :
    (stateAfter (goodSys [ipA, ipB] 1 1) schedEager).output.drop 2 =
        [.progress ⟨1, 2, 1, '\r'⟩, .enough 1] ∧
      ∀ line, Output.progress line ∈ (stateAfter (goodSys [ipA, ipB] 1 1) schedEager).output →
        line.total = 2 ∧ line.count ≤ 2 ∧
        (line.terminator = '\n' ∨ line.terminator = '\r') ∧
        (line.count = 2 → line.terminator = '\n') ∧
        (line.terminator = '\r' → line.count < 2) :=
  ⟨rfl, (progress_line_terminator (goodSys [ipA, ipB] 1 1)
    (stateAfter (goodSys [ipA, ipB] 1 1) schedEager) ⟨schedEager, rfl⟩).2.1⟩

/-- C4, witness: the upgrade request is answered with status 200. -/
theorem TestDelayOnce_upgrade_failed_witness :
    (TestDelayOnce { traceConfig 1 0 with TestWebSocket := true } ipA (goodWorld 200)).1 =
        some (none, some "websocket: %!s(<nil>)") ∧
      sends (workerProgram { traceConfig 1 0 with TestWebSocket := true } ipA (goodWorld 200)) =
        [] :=
  have h := TestDelayOnce_upgrade_failed { traceConfig 1 0 with TestWebSocket := true } ipA
    (goodWorld 200) ⟨34000000, traceBody⟩ (some "websocket: %!s(<nil>)") rfl
    ((containsList_iff _ _).mp (by decide))
    ⟨"fl=29f1\nuag=Mozilla/5.0\n".data, 'L', "AX\nsliver=none\n".data, by decide, by decide⟩
    rfl rfl
  ⟨h.1, h.2.2 rfl⟩

/-- C5, witness: a body without the marker. -/
theorem TestDelayOnce_not_match_witness :
    TestDelayOnce (traceConfig 1 0) ipA (bodyWorld "colo=LAX\n") =
      (some (none, some "not match"), [.traceFetch ipA]) :=
  (TestDelayOnce_not_match (traceConfig 1 0) ipA (bodyWorld "colo=LAX\n")
    ⟨34000000, "colo=LAX\n"⟩ rfl
    (Or.inl (fun h => absurd ((containsList_iff _ _).mpr h) (by decide)))).1

/-- C6, witness: the body `traceBody`, whose leftmost match starts after 24 characters and
captures `LAX`. -/
theorem TestDelayOnce_success_witness :
    ∃ r, (TestDelayOnce (traceConfig 1 0) ipA (goodWorld 101)).1 = some (some r, none) ∧
      r.dataCenter = "LAX" ∧ r.city = "Los Angeles" := by
  obtain ⟨r, h1, h2, _, _, _, _, h7, _⟩ := TestDelayOnce_success (traceConfig 1 0) ipA
    (goodWorld 101) ⟨34000000, traceBody⟩ "fl=29f1\nuag=Mozilla/5.0\n".data "LAX".data
    "\nsliver=none\n".data rfl
    ((containsList_iff _ _).mp (by decide)) (by decide) (by decide) (by decide)
    (by intro c hc; cases hc; decide)
    (leftmost_of_drop _ 24 (by decide)) (Or.inl rfl)
  exact ⟨r, h1, h2, (h7 ⟨"North America", "US", "Los Angeles"⟩ (by decide)).2.2⟩

end Speed
